import Mathlib

/-!
Verification of the libcoin wallet engine (src/btcWallet/wallet.cpp) against its
natural-language specification.  The C++ code is shallowly embedded: each
function under scrutiny is transcribed into an executable Lean definition over
explicit data (money values are Int, matching int64 under the no-overflow
assumption the source itself makes for monetary amounts; external collaborators
such as the block chain are oracle functions packaged in `Env`).
-/

namespace BtcWallet

/-! ### Data model -/

/-- One transaction output as the wallet sees it: its value (`CTxOut::nValue`)
together with the result of the keystore ownership test `Wallet::IsMine(txout)`,
which depends only on the output's script and the key store, and is therefore
baked into the datum as an oracle bit. -/
structure TxOut where
  nValue : Int
  isMine : Bool
deriving DecidableEq

def txOutDefault : TxOut := { nValue := 0, isMine := false }

/-- The part of a transaction the confirmation walker needs: its hash and the
list of previous outpoints `(prevout.hash, prevout.n)` of its inputs
(`CMerkleTx` viewed through `GetHash()` and `vin`). -/
structure MTx where
  hash : Nat
  vin : List (Nat × Nat)
deriving DecidableEq

def mtxDefault : MTx := { hash := 0, vin := [] }

/-- A wallet transaction record (`CWalletTx`): the underlying transaction, its
outputs, the per-output spent bitmap `vfSpent`, the merkle/confirmation
metadata (`_blockHash`, `_merkleBranch`, `_index`), the origination flag
`fFromMe`, the receipt time, the coinbase flag, and the recorded supporting
transactions `vtxPrev`. -/
structure WTx where
  tx : MTx
  vout : List TxOut
  vfSpent : List Bool
  blockHash : Nat
  merkleBranch : List Nat
  index : Int
  fFromMe : Bool
  nTimeReceived : Nat
  isCoinBase : Bool
  vtxPrev : List MTx
deriving DecidableEq

def wtxDefault : WTx :=
  { tx := mtxDefault, vout := [], vfSpent := [], blockHash := 0, merkleBranch := [],
    index := -1, fFromMe := false, nTimeReceived := 0, isCoinBase := false, vtxPrev := [] }

/-- The external collaborators consumed by the wallet, keyed by transaction
hash: the ledger queries `isFinal`, `getDepthInMainChain`, `getBlocksToMaturity`,
and the wallet-side predicates `IsFromMe(tx)` (debit-based) and the result of
`Wallet::IsConfirmed` as the coin selector invokes it.  `isConfirmedCode` below
models the body of `Wallet::IsConfirmed` itself; inside the selector the call is
abstracted by the `confirmed` oracle, so every selector theorem holds for every
valuation of it. -/
structure Env where
  isFinal : Nat → Bool
  depth : Nat → Int
  blocksToMaturity : Nat → Int
  isFromMe : Nat → Bool
  confirmed : Nat → Bool

/-! ### Coin selector: Wallet::SelectCoinsMinConf (wallet.cpp:607-750)

The pseudo-random shuffle of the candidate records is modelled by quantifying
over the order of the input list `vCoins`; the `rand() % 2` coin flips of the
stochastic subset-sum phase are an oracle `flips : Nat → Nat → Bool` giving the
flip for candidate `i` of trial `nRep`.  `CENT` is a constant defined outside
the provided sources, so it is passed as the parameter `cent`. -/

/-- Initial value of `coinLowestLarger.first`: `INT64_MAX`. -/
def INT64MAX : Int := 9223372036854775807

/-- An entry of the selector's working list `vValue`:
`pair<int64, pair<const CWalletTx*, unsigned int>>`. -/
structure Candidate where
  value : Int
  wtx : WTx
  idx : Nat
deriving DecidableEq

def candDefault : Candidate := { value := 0, wtx := wtxDefault, idx := 0 }

/-- The selector's scan state: `vValue`, `nTotalLower` and `coinLowestLarger`
(value field initialised to `INT64_MAX`, coin field `NULL` modelled as `none`). -/
structure ScanSt where
  vValue : List Candidate
  nTotalLower : Int
  llValue : Int
  llCoin : Option (WTx × Nat)
deriving DecidableEq

def scanSt0 : ScanSt := { vValue := [], nTotalLower := 0, llValue := INT64MAX, llCoin := none }

/-- Result of a selection: the returned bool together with the output
parameters `setCoinsRet` (as a list of `(record, output index)` references) and
`nValueRet`. -/
structure SelRes where
  success : Bool
  coins : List (WTx × Nat)
  total : Int
deriving DecidableEq

/-- Pairs each list element with its index, starting at `k`. -/
def enumIdx : Nat → List α → List (Nat × α)
  | _, [] => []
  | k, a :: as => (k, a) :: enumIdx (k + 1) as

/-- Inner loop of the candidate scan, over the outputs `(i, vout[i])` of one
record `w`: skip spent or unowned or non-positive outputs; an output whose
value equals `nTargetValue` is returned at once; values below
`nTargetValue + CENT` accumulate into `vValue`/`nTotalLower`; otherwise the
smallest seen so far is kept as `coinLowestLarger`. -/
def scanOuts (target cent : Int) (w : WTx) : List (Nat × TxOut) → ScanSt → ScanSt ⊕ SelRes
  | [], st => Sum.inl st
  | (i, out) :: rest, st =>
    if w.vfSpent.getD i false || !out.isMine then
      scanOuts target cent w rest st
    else
      if out.nValue ≤ 0 then
        scanOuts target cent w rest st
      else if out.nValue = target then
        Sum.inr { success := true, coins := [(w, i)], total := out.nValue }
      else if out.nValue < target + cent then
        scanOuts target cent w rest
          { st with vValue := st.vValue ++ [{ value := out.nValue, wtx := w, idx := i }],
                    nTotalLower := st.nTotalLower + out.nValue }
      else if out.nValue < st.llValue then
        scanOuts target cent w rest { st with llValue := out.nValue, llCoin := some (w, i) }
      else
        scanOuts target cent w rest st

/-- Outer loop of the candidate scan over the (already shuffled) records:
skip a record unless it is final and passes `IsConfirmed`, is not an immature
coinbase, and has depth at least `nConfMine` (self-originated) or `nConfTheirs`
(received). -/
def scanCoins (env : Env) (target cent confMine confTheirs : Int) :
    List WTx → ScanSt → ScanSt ⊕ SelRes
  | [], st => Sum.inl st
  | w :: rest, st =>
    if !env.isFinal w.tx.hash || !env.confirmed w.tx.hash then
      scanCoins env target cent confMine confTheirs rest st
    else if w.isCoinBase ∧ 0 < env.blocksToMaturity w.tx.hash then
      scanCoins env target cent confMine confTheirs rest st
    else if env.depth w.tx.hash < (if env.isFromMe w.tx.hash then confMine else confTheirs) then
      scanCoins env target cent confMine confTheirs rest st
    else
      match scanOuts target cent w (enumIdx 0 w.vout) st with
      | Sum.inl st1 => scanCoins env target cent confMine confTheirs rest st1
      | Sum.inr r => Sum.inr r

/-- State of one stochastic trial: `vfIncluded` (as the set of included
indices into the sorted `vValue`), the running `nTotal`, `fReachedTarget`,
and the across-trial accumulators `nBest` / `vfBest`. -/
structure TrialSt where
  included : Finset Nat
  total : Int
  reached : Bool
  best : Int
  bestSet : Finset Nat

/-- One pass of a stochastic trial over the indexed sorted candidates.  `pick`
is the include test: in pass 0 the coin flip, in pass 1 "not yet included".
On reaching the target the trial records the subset if it beats `nBest`, then
backtracks the current candidate and keeps scanning. -/
def doPass (tgt : Int) (pick : Nat → Finset Nat → Bool) :
    List (Nat × Candidate) → TrialSt → TrialSt
  | [], st => st
  | (i, c) :: rest, st =>
    if pick i st.included then
      if tgt ≤ st.total + c.value then
        doPass tgt pick rest
          { (if st.total + c.value < st.best then
               { st with best := st.total + c.value, bestSet := insert i st.included }
             else st) with
            reached := true,
            total := st.total + c.value - c.value,
            included := (insert i st.included).erase i }
      else
        doPass tgt pick rest { st with total := st.total + c.value, included := insert i st.included }
    else
      doPass tgt pick rest st

/-- One stochastic trial: pass 0 includes by coin flip, pass 1 (run only when
the target was not reached) force-includes the candidates not yet included. -/
def runTrial (tgt : Int) (sorted : List Candidate) (flip : Nat → Bool)
    (best : Int) (bestSet : Finset Nat) : Int × Finset Nat :=
  let st0 : TrialSt :=
    { included := ∅, total := 0, reached := false, best := best, bestSet := bestSet }
  let st1 := doPass tgt (fun i _ => flip i) (enumIdx 0 sorted) st0
  let st2 := if st1.reached then st1
             else doPass tgt (fun i s => decide (i ∉ s)) (enumIdx 0 sorted) st1
  (st2.best, st2.bestSet)

/-- The trial loop: up to 1000 trials, stopping early once `nBest` hits the
(adjusted) target. -/
def repLoop (tgt : Int) (sorted : List Candidate) (flips : Nat → Nat → Bool) :
    Nat → Nat → Int × Finset Nat → Int × Finset Nat
  | 0, _, acc => acc
  | fuel + 1, rep, acc =>
    if acc.1 = tgt then acc
    else repLoop tgt sorted flips fuel (rep + 1) (runTrial tgt sorted (flips rep) acc.1 acc.2)

/-- Insertion step of the descending-by-value sort of `vValue`
(`sort(vValue.rbegin(), vValue.rend())`; the source tie-breaks equal values by
pointer address, which is order-irrelevant for every property proved here). -/
def insertValueDesc (c : Candidate) : List Candidate → List Candidate
  | [] => [c]
  | x :: xs => if x.value < c.value then c :: x :: xs else x :: insertValueDesc c xs

/-- Descending-by-value sort of `vValue`. -/
def sortValueDesc (l : List Candidate) : List Candidate := l.foldr insertValueDesc []

/-- The indexed sorted candidates selected by `vfBest`. -/
def pickedEntries (sorted : List Candidate) (s : Finset Nat) : List (Nat × Candidate) :=
  (enumIdx 0 sorted).filter fun p => decide (p.1 ∈ s)

/-- `Wallet::SelectCoinsMinConf` (wallet.cpp:607-750).  `vCoins` is the record
list after the pseudo-random shuffle; `flips` the stream of `rand() % 2`
outcomes of the stochastic phase. -/
def selectCoinsMinConf (env : Env) (nTargetValue cent confMine confTheirs : Int)
    (vCoins : List WTx) (flips : Nat → Nat → Bool) : SelRes :=
  match scanCoins env nTargetValue cent confMine confTheirs vCoins scanSt0 with
  | Sum.inr r => r
  | Sum.inl st =>
    if st.nTotalLower = nTargetValue ∨ st.nTotalLower = nTargetValue + cent then
      { success := true,
        coins := st.vValue.map fun c => (c.wtx, c.idx),
        total := (st.vValue.map Candidate.value).sum }
    else if st.nTotalLower < nTargetValue + (if st.llCoin.isSome then cent else 0) then
      match st.llCoin with
      | none => { success := false, coins := [], total := 0 }
      | some p => { success := true, coins := [p], total := st.llValue }
    else
      let tgtAdj := if nTargetValue + cent ≤ st.nTotalLower then nTargetValue + cent
                    else nTargetValue
      let sorted := sortValueDesc st.vValue
      let bestAcc := repLoop tgtAdj sorted flips 1000 0 (st.nTotalLower, Finset.range sorted.length)
      let fromBest : SelRes :=
        { success := true,
          coins := (pickedEntries sorted bestAcc.2).map fun p => (p.2.wtx, p.2.idx),
          total := ((pickedEntries sorted bestAcc.2).map fun p => p.2.value).sum }
      match st.llCoin with
      | some p =>
        if st.llValue - tgtAdj ≤ bestAcc.1 - tgtAdj then
          { success := true, coins := [p], total := st.llValue }
        else fromBest
      | none => fromBest

/-- `Wallet::SelectCoins` (wallet.cpp:752-757): try confirmation tuples
`(1,6)`, `(1,1)`, `(0,1)` in order, short-circuiting on the first success; each
call draws its own shuffle order and flip stream. -/
def selectCoins (env : Env) (nTargetValue cent : Int)
    (v1 v2 v3 : List WTx) (f1 f2 f3 : Nat → Nat → Bool) : SelRes :=
  let r1 := selectCoinsMinConf env nTargetValue cent 1 6 v1 f1
  if r1.success then r1
  else
    let r2 := selectCoinsMinConf env nTargetValue cent 1 1 v2 f2
    if r2.success then r2
    else selectCoinsMinConf env nTargetValue cent 0 1 v3 f3

/-- The wallet value of a returned coin reference: `vout[idx].nValue` of its
owning record. -/
def sumCoins (coins : List (WTx × Nat)) : Int :=
  (coins.map fun p => (p.1.vout.getD p.2 txOutDefault).nValue).sum

/-! ### Transaction builder entry validation: Wallet::CreateTransaction
(wallet.cpp:762-772).  The cited prologue accumulates the amounts, testing the
running total (not the individual amount) against 0 before each addition, then
rejects an empty list or a negative grand total. -/

/-- The accumulation loop over `vecSend`: before adding each amount it tests
`nValue < 0` on the total so far and fails; returns the final total. -/
def sumSendLoop : Int → List Int → Option Int
  | acc, [] => some acc
  | acc, s :: rest => if acc < 0 then none else sumSendLoop (acc + s) rest

/-- The validation prologue of `Wallet::CreateTransaction`: `true` means the
checks passed and construction proceeds. -/
def createTransactionCheck (vecSend : List Int) : Bool :=
  match sumSendLoop 0 vecSend with
  | none => false
  | some nValue => !(vecSend.isEmpty || decide (nValue < 0))

/-! ### Wallet::Unlock (wallet.cpp:51-70). -/

/-- The observable outcome of the three cryptographic steps for one stored
`CMasterKey` under a given passphrase: whether `SetKeyFromPassphrase`
succeeds, whether `Decrypt` of the enciphered master key succeeds, and whether
`CCryptoKeyStore::Unlock` accepts the resulting key material. -/
structure MasterKeyTrial where
  setKeyOk : Bool
  decryptOk : Bool
  unlockOk : Bool
deriving DecidableEq

def masterKeyTrialDefault : MasterKeyTrial :=
  { setKeyOk := false, decryptOk := false, unlockOk := false }

/-- The `BOOST_FOREACH` body of `Wallet::Unlock`: a failed derivation or a
failed decryption returns `false` from the whole function at once; only a key
that derives and decrypts but fails keystore validation falls through to the
next record. -/
def unlockLoop : List MasterKeyTrial → Bool
  | [] => false
  | r :: rest =>
    if !r.setKeyOk then false
    else if !r.decryptOk then false
    else if r.unlockOk then true
    else unlockLoop rest

/-- `Wallet::Unlock`: returns `false` when the wallet is not locked, otherwise
runs the master-key loop. -/
def unlockWallet (isLocked : Bool) (masterKeys : List MasterKeyTrial) : Bool :=
  if !isLocked then false else unlockLoop masterKeys

/-! ### Confirmation walker: Wallet::IsConfirmed (wallet.cpp:364-403). -/

/-- The `mapPrev` built by the source: the fill loop executes
`mapPrev[tx.GetHash()] = &mtx` for every `mtx` in `tx.vtxPrev`, so every write
uses the outer transaction's own hash as the key and the map ends up holding at
most the single binding from `tx.GetHash()` to the last element of `vtxPrev`. -/
def mapPrevLookup (wtx : WTx) (h : Nat) : Option MTx :=
  match wtx.vtxPrev.getLast? with
  | none => none
  | some lastPrev => if h = wtx.tx.hash then some lastPrev else none

/-- Modelled from the spec: the intended `mapPrev` of the confirmation walk,
"every ancestor transaction reachable through its recorded
supporting-transaction set", i.e. each supporting transaction keyed by its own
hash (last write wins, mirroring map insertion order). -/
def intendedMapPrevLookup (wtx : WTx) (h : Nat) : Option MTx :=
  (wtx.vtxPrev.filter fun m => decide (m.hash = h)).getLast?

/-- The inner `BOOST_FOREACH` over `ptx->vin`: each previous outpoint's hash is
looked up in `mapPrev`; a missing entry fails the whole walk, otherwise the
found transactions are appended to the work queue. -/
def resolveVin (look : Nat → Option MTx) : List (Nat × Nat) → Option (List MTx)
  | [] => some []
  | (h, _) :: rest =>
    match look h with
    | none => none
    | some p =>
      match resolveVin look rest with
      | none => none
      | some ps => some (p :: ps)

/-- The work-queue loop of `Wallet::IsConfirmed`: each queued transaction must
be final; one at depth ≥ 1 is settled; otherwise it must be self-originated and
its parents (resolved through `look`) join the queue.  The source loop has no
bound, so the model carries fuel: `none` means the fuel ran out. -/
def confirmWalk (env : Env) (look : Nat → Option MTx) : Nat → List MTx → Option Bool
  | 0, _ => none
  | _ + 1, [] => some true
  | fuel + 1, ptx :: queue =>
    if !env.isFinal ptx.hash then some false
    else if 1 ≤ env.depth ptx.hash then confirmWalk env look fuel queue
    else if !env.isFromMe ptx.hash then some false
    else
      match resolveVin look ptx.vin with
      | none => some false
      | some parents => confirmWalk env look fuel (queue ++ parents)

/-- `Wallet::IsConfirmed` as written: the quick checks, then the dependency
walk seeded with the transaction itself, with `mapPrev` keyed as in the
source (`mapPrevLookup`). -/
def isConfirmedCode (env : Env) (wtx : WTx) (fuel : Nat) : Option Bool :=
  if !env.isFinal wtx.tx.hash then some false
  else if 1 ≤ env.depth wtx.tx.hash then some true
  else if !env.isFromMe wtx.tx.hash then some false
  else confirmWalk env (mapPrevLookup wtx) fuel [wtx.tx]

/-- Modelled from the spec: `Wallet::IsConfirmed` with the intended `mapPrev`,
keying each supporting transaction by its own hash. -/
def isConfirmedIntended (env : Env) (wtx : WTx) (fuel : Nat) : Option Bool :=
  if !env.isFinal wtx.tx.hash then some false
  else if 1 ≤ env.depth wtx.tx.hash then some true
  else if !env.isFromMe wtx.tx.hash then some false
  else confirmWalk env (intendedMapPrevLookup wtx) fuel [wtx.tx]

/-! ### Coin ledger view: Wallet::AddToWallet (wallet.cpp:226-296) and
Wallet::WalletUpdateSpent (wallet.cpp:201-224).  `mapWallet` is an association
list keyed by transaction hash (`std::map` keys are unique, carried as a NoDup
hypothesis).  Durable writes are modelled as always succeeding; the
default-receiving-key replacement and UI notification do not touch
`mapWallet` and are omitted. -/

/-- `mapWallet.find(h)`. -/
def lookupW (m : List (Nat × WTx)) (h : Nat) : Option WTx :=
  (m.find? fun p => decide (p.1 = h)).map Prod.snd

/-- Replace the record stored under key `h`. -/
def updateW (m : List (Nat × WTx)) (h : Nat) (w : WTx) : List (Nat × WTx) :=
  m.map fun p => if p.1 = h then (h, w) else p

/-- Modelled from the spec: `CWalletTx::UpdateSpent` is not under src/ (only
its caller is); per the spec's monotonic-merge contract it ORs the incoming
true spent flags into the stored bitmap up to the stored bitmap's length and
"never overwrites already-true flags with false". -/
def updateSpent : List Bool → List Bool → List Bool
  | old, [] => old
  | [], _ => []
  | o :: os, n :: ns => (o || n) :: updateSpent os ns

/-- Modelled from the spec: `CWalletTx::MarkSpent` is not under src/; it sets
one bit of the spent bitmap (out-of-range indices are rejected by the source
and leave the bitmap unchanged here). -/
def markSpent (w : WTx) (i : Nat) : WTx := { w with vfSpent := w.vfSpent.set i true }

/-- Modelled from the spec: `CWalletTx::IsSpent` is not under src/; it reads
one bit of the spent bitmap (false when out of range). -/
def isSpentBit (w : WTx) (i : Nat) : Bool := w.vfSpent.getD i false

/-- The merge arm of `Wallet::AddToWallet` on an existing record: adopt a
non-null incoming block hash if it differs, adopt incoming merkle branch/index
if the incoming index is set and either differs, raise `fFromMe`, and merge the
spent bitmaps. -/
def mergeWTx (wtx wtxIn : WTx) : WTx :=
  let w1 := if wtxIn.blockHash ≠ 0 ∧ wtxIn.blockHash ≠ wtx.blockHash then
              { wtx with blockHash := wtxIn.blockHash }
            else wtx
  let w2 := if wtxIn.index ≠ -1 ∧
               (wtxIn.merkleBranch ≠ w1.merkleBranch ∨ wtxIn.index ≠ w1.index) then
              { w1 with merkleBranch := wtxIn.merkleBranch, index := wtxIn.index }
            else w1
  let w3 := if wtxIn.fFromMe = true ∧ wtxIn.fFromMe ≠ w2.fFromMe then
              { w2 with fFromMe := wtxIn.fFromMe }
            else w2
  { w3 with vfSpent := updateSpent w3.vfSpent wtxIn.vfSpent }

/-- One input of `Wallet::WalletUpdateSpent`: if the referenced record is in
the wallet, its output not yet marked spent, and owned, mark it spent. -/
def walletUpdateSpentStep (m : List (Nat × WTx)) (pv : Nat × Nat) : List (Nat × WTx) :=
  match lookupW m pv.1 with
  | none => m
  | some wtx =>
    if !isSpentBit wtx pv.2 && (wtx.vout.getD pv.2 txOutDefault).isMine then
      updateW m pv.1 (markSpent wtx pv.2)
    else m

/-- `Wallet::WalletUpdateSpent` over the inputs of a transaction. -/
def walletUpdateSpent (m : List (Nat × WTx)) (vin : List (Nat × Nat)) : List (Nat × WTx) :=
  vin.foldl walletUpdateSpentStep m

/-- `Wallet::AddToWallet`: insert a fresh record (stamping the receipt time),
or merge confirmation metadata into the stored one; in both cases finish by
running `WalletUpdateSpent` over the stored record's inputs. -/
def addToWallet (m : List (Nat × WTx)) (wtxIn : WTx) (now : Nat) : List (Nat × WTx) :=
  match lookupW m wtxIn.tx.hash with
  | none =>
    let wtx := { wtxIn with nTimeReceived := now }
    walletUpdateSpent (m ++ [(wtxIn.tx.hash, wtx)]) wtx.tx.vin
  | some wtxOld =>
    let wtx := mergeWTx wtxOld wtxIn
    walletUpdateSpent (updateW m wtxIn.tx.hash wtx) wtx.tx.vin

/-! ### Key pool: Wallet::ReserveKeyFromKeyPool (wallet.cpp:1112-1136) and
Wallet::ReturnKey (wallet.cpp:1149-1155).  `setKeyPool` is the ordered set of
spare key indices; reading the durable pool record is modelled as succeeding
(the source throws on a failed read). -/

/-- `Wallet::ReserveKeyFromKeyPool`: top up first when unlocked (`topUp` stands
for `TopUpKeyPool`, whose key generation is external state); with an empty pool
return the sentinel (`nIndex = -1`, modelled as `none`); otherwise pop and
return the smallest index. -/
def reserveKeyFromKeyPool (isLocked : Bool) (topUp : Finset Int → Finset Int)
    (setKeyPool : Finset Int) : Option Int × Finset Int :=
  let pool := if !isLocked then topUp setKeyPool else setKeyPool
  if h : pool.Nonempty then
    (some (pool.min' h), pool.erase (pool.min' h))
  else
    (none, pool)

/-- `Wallet::ReturnKey`: reinsert the index into the available set. -/
def returnKey (setKeyPool : Finset Int) (nIndex : Int) : Finset Int :=
  insert nIndex setKeyPool

/-! ### Invariants used by the verification (predicates over the embedded
states; they are definitions of the development, not transcriptions). -/

/-- The value of the index set `s` into the sorted candidate list `l`. -/
def sumIdx (l : List Candidate) (s : Finset Nat) : Int :=
  ∑ i in s, (l.getD i candDefault).value

/-- Invariant of the across-trial accumulator `(nBest, vfBest)`: the best total
is the value of the best set, the best set only holds candidate indices, and
the best total has reached the (adjusted) target. -/
def BestInv (tgt : Int) (l : List Candidate) (acc : Int × Finset Nat) : Prop :=
  acc.1 = sumIdx l acc.2 ∧ acc.2 ⊆ Finset.range l.length ∧ tgt ≤ acc.1

/-- Invariant of a trial state: the running total is the value of the included
set, the included set only holds candidate indices, and the accumulator
invariant holds. -/
def TrialInv (tgt : Int) (l : List Candidate) (st : TrialSt) : Prop :=
  st.total = sumIdx l st.included ∧ st.included ⊆ Finset.range l.length ∧
  BestInv tgt l (st.best, st.bestSet)

/-- Invariant of the selector's scan state: `nTotalLower` is the sum of
`vValue`, every candidate's stored value is its output's wallet value, and
`coinLowestLarger`, when set, holds its coin's wallet value, which is at least
`nTargetValue + CENT`. -/
def ScanInv (target cent : Int) (st : ScanSt) : Prop :=
  (st.vValue.map Candidate.value).sum = st.nTotalLower ∧
  (∀ c ∈ st.vValue, (c.wtx.vout.getD c.idx txOutDefault).nValue = c.value) ∧
  (∀ p : WTx × Nat, st.llCoin = some p →
    ((p.1.vout.getD p.2 txOutDefault).nValue = st.llValue ∧ target + cent ≤ st.llValue))

/-- The selector's output contract: on success the reported total is the sum
of the returned coins' wallet values and (for a non-negative CENT) at least the
target; on failure the output parameters hold their cleared values. -/
def ResOk (target cent : Int) (r : SelRes) : Prop :=
  (r.success = true → (r.total = sumCoins r.coins ∧ (0 ≤ cent → target ≤ r.total))) ∧
  (r.success = false → (r.coins = [] ∧ r.total = 0))

/-- Evolution of a wallet record under `WalletUpdateSpent`: every field is
unchanged except that spent bits may be switched on (the bitmap keeps its
length). -/
def SpentEvol (w w1 : WTx) : Prop :=
  w1.tx = w.tx ∧ w1.vout = w.vout ∧ w1.blockHash = w.blockHash ∧
  w1.merkleBranch = w.merkleBranch ∧ w1.index = w.index ∧ w1.fFromMe = w.fFromMe ∧
  w1.nTimeReceived = w.nTimeReceived ∧ w1.isCoinBase = w.isCoinBase ∧
  w1.vtxPrev = w.vtxPrev ∧
  w1.vfSpent.length = w.vfSpent.length ∧
  (∀ i, w.vfSpent.getD i false = true → w1.vfSpent.getD i false = true)

/-- A previous outpoint on which `WalletUpdateSpent` has nothing left to do:
the record is absent, or the bit is already set, or the output is not owned,
or the index is outside the bitmap (where `MarkSpent` leaves it unchanged). -/
def Settled (m : List (Nat × WTx)) (pv : Nat × Nat) : Prop :=
  ∀ w, lookupW m pv.1 = some w →
    (w.vfSpent.getD pv.2 false = true ∨ (w.vout.getD pv.2 txOutDefault).isMine = false ∨
     w.vfSpent.length ≤ pv.2)

/-! ### Concrete fixtures used by example theorems and witnesses -/

/-- A chain view where every transaction is final and self-originated, the
transaction with hash 1 is at depth 2 and every other one unconfirmed. -/
def envBug : Env :=
  { isFinal := fun _ => true, depth := fun h => if h = 1 then 2 else 0,
    blocksToMaturity := fun _ => 0, isFromMe := fun _ => true, confirmed := fun _ => true }

/-- A chain-confirmed parent transaction (hash 1, depth 2 in `envBug`). -/
def txParent : MTx := { hash := 1, vin := [(99, 0)] }

/-- An unconfirmed self-originated transaction spending `txParent`, with
`txParent` recorded in its supporting-transaction set. -/
def wtxChild : WTx :=
  { wtxDefault with tx := { hash := 2, vin := [(1, 0)] }, fFromMe := true, vtxPrev := [txParent] }

/-- A chain view where every record is eligible for selection: final,
confirmed, depth 10, mature, externally received. -/
def envOpen : Env :=
  { isFinal := fun _ => true, depth := fun _ => 10, blocksToMaturity := fun _ => 0,
    isFromMe := fun _ => false, confirmed := fun _ => true }

/-- A wallet record holding a single unspent owned output of value `v`. -/
def simpleCoin (h : Nat) (v : Int) : WTx :=
  { wtxDefault with
    tx := { hash := h, vin := [] }
    vout := [{ nValue := v, isMine := true }]
    vfSpent := [false] }

end BtcWallet

namespace BtcWallet

/-! ### C9: key pool reserve/return round trip -/

/-- C9: on a locked wallet with a non-empty pool, `ReserveKeyFromKeyPool`
returns the smallest available index and removes it from the available set, and
`ReturnKey` of that index restores the available set exactly, so the index can
be reserved again. -/
theorem reserveKey_returnKey_roundtrip (topUp : Finset Int → Finset Int)
    (pool : Finset Int) (hne : pool.Nonempty) :
    ∃ i, reserveKeyFromKeyPool true topUp pool = (some i, pool.erase i) ∧
      (∀ j ∈ pool, i ≤ j) ∧ i ∈ pool ∧ returnKey (pool.erase i) i = pool := by
  have hmem := pool.min'_mem hne
  refine ⟨pool.min' hne, ?_, fun j hj => pool.min'_le j hj, hmem, Finset.insert_erase hmem⟩
  simp only [reserveKeyFromKeyPool, Bool.not_true, Bool.false_eq_true, if_false]
  rw [dif_pos hne]

/-- Witness for C9 at the concrete pool {2, 5}: index 2 is reserved and
returned. -/
theorem reserveKey_returnKey_roundtrip_witness :
    ({2, 5} : Finset Int).Nonempty ∧
    ∃ i, reserveKeyFromKeyPool true id {2, 5} = (some i, ({2, 5} : Finset Int).erase i) ∧
      (∀ j ∈ ({2, 5} : Finset Int), i ≤ j) ∧ i ∈ ({2, 5} : Finset Int) ∧
      returnKey (({2, 5} : Finset Int).erase i) i = {2, 5} :=
  ⟨⟨2, by decide⟩, reserveKey_returnKey_roundtrip id {2, 5} ⟨2, by decide⟩⟩

/-! ### C3: CreateTransaction amount validation -/

/-- C3 counterexample: the output list `[100, -50]` contains a negative
individual amount, yet the validation prologue of `Wallet::CreateTransaction`
accepts it (the loop tests the running total, not each amount), so the claim
that any negative individual amount is rejected is false. -/
theorem createTransactionCheck_negative_amount_passes :
    createTransactionCheck [100, -50] = true := by decide

theorem sumSendLoop_none_iff (l : List Int) :
    ∀ acc : Int, sumSendLoop acc l = none ↔ ∃ k, k < l.length ∧ acc + (l.take k).sum < 0 := by
  induction l with
  | nil => intro acc; simp [sumSendLoop]
  | cons s rest ih =>
    intro acc
    simp only [sumSendLoop]
    by_cases hacc : acc < 0
    · simp only [if_pos hacc]
      constructor
      · intro _; exact ⟨0, by simp, by simpa using hacc⟩
      · intro _; trivial
    · rw [if_neg hacc, ih (acc + s)]
      constructor
      · rintro ⟨k, hk, hsum⟩
        refine ⟨k + 1, by simpa using Nat.succ_lt_succ hk, ?_⟩
        simpa [add_assoc] using hsum
      · rintro ⟨k, hk, hsum⟩
        match k, hk, hsum with
        | 0, _, hsum => simp at hsum; omega
        | k + 1, hk, hsum =>
          exact ⟨k, by simpa using Nat.lt_of_succ_lt_succ hk, by simpa [add_assoc] using hsum⟩

theorem sumSendLoop_some (l : List Int) :
    ∀ (acc v : Int), sumSendLoop acc l = some v → v = acc + l.sum := by
  induction l with
  | nil => intro acc v h; simp [sumSendLoop] at h; simp [h.symm]
  | cons s rest ih =>
    intro acc v h
    simp only [sumSendLoop] at h
    by_cases hacc : acc < 0
    · rw [if_pos hacc] at h; cases h
    · rw [if_neg hacc] at h
      have := ih (acc + s) v h
      simp [this, add_assoc]

/-- C3 (amended): the validation prologue of `Wallet::CreateTransaction`
rejects exactly when the output list is empty or some prefix sum of the
amounts (in particular the full total) is negative; a negative individual
amount is rejected only when it drives some prefix sum negative. -/
theorem createTransactionCheck_false_iff (vecSend : List Int) :
    createTransactionCheck vecSend = false ↔
      vecSend = [] ∨ ∃ k, k ≤ vecSend.length ∧ (vecSend.take k).sum < 0 := by
  unfold createTransactionCheck
  cases hs : sumSendLoop 0 vecSend with
  | none =>
    obtain ⟨k, hk, hsum⟩ := (sumSendLoop_none_iff vecSend 0).mp hs
    simp only []
    constructor
    · intro _; exact Or.inr ⟨k, Nat.le_of_lt hk, by simpa using hsum⟩
    · intro _; trivial
  | some v =>
    have hv : v = vecSend.sum := by simpa using sumSendLoop_some vecSend 0 v hs
    have hno : ∀ k, k < vecSend.length → ¬((0 : Int) + (vecSend.take k).sum < 0) := by
      intro k hk hsum
      have : sumSendLoop 0 vecSend = none := (sumSendLoop_none_iff vecSend 0).mpr ⟨k, hk, hsum⟩
      rw [hs] at this; cases this
    simp only [Bool.not_eq_false', Bool.or_eq_true, List.isEmpty_iff, decide_eq_true_eq]
    constructor
    · rintro (rfl | hlt)
      · exact Or.inl rfl
      · exact Or.inr ⟨vecSend.length, le_refl _, by simpa [List.take_length, ← hv] using hlt⟩
    · rintro (rfl | ⟨k, hk, hsum⟩)
      · exact Or.inl rfl
      · rcases Nat.lt_or_ge k vecSend.length with hlt | hge
        · exact absurd (by simpa using hsum) (hno k hlt)
        · have hkl : k = vecSend.length := Nat.le_antisymm hk hge
          refine Or.inr ?_
          rw [hv]
          have : vecSend.take k = vecSend := by rw [hkl]; exact List.take_length ..
          rwa [this] at hsum

/-! ### C4: Wallet::Unlock master-key loop -/

/-- C4 counterexample: with two stored master keys where derivation fails for
the first but the second would validate, `Wallet::Unlock` returns `false` — the
first record's failure aborts the loop, refuting the claim that a failed
derivation does not prevent later records from being tried. -/
theorem unlock_aborts_on_derivation_failure :
    unlockWallet true
      [{ setKeyOk := false, decryptOk := true, unlockOk := true },
       { setKeyOk := true, decryptOk := true, unlockOk := true }] = false := by decide

theorem unlockLoop_true_iff (recs : List MasterKeyTrial) :
    unlockLoop recs = true ↔
      ∃ k, k < recs.length ∧
        ((recs.getD k masterKeyTrialDefault).setKeyOk = true ∧
         (recs.getD k masterKeyTrialDefault).decryptOk = true ∧
         (recs.getD k masterKeyTrialDefault).unlockOk = true) ∧
        ∀ j, j < k →
          ((recs.getD j masterKeyTrialDefault).setKeyOk = true ∧
           (recs.getD j masterKeyTrialDefault).decryptOk = true ∧
           (recs.getD j masterKeyTrialDefault).unlockOk = false) := by
  induction recs with
  | nil => simp [unlockLoop]
  | cons r rest ih =>
    simp only [unlockLoop]
    by_cases h1 : r.setKeyOk
    · by_cases h2 : r.decryptOk
      · by_cases h3 : r.unlockOk
        · simp only [h1, h2, h3, Bool.not_true, Bool.false_eq_true, if_false, if_true]
          constructor
          · intro _
            exact ⟨0, Nat.succ_pos _, by simp [List.getD_cons_zero, h1, h2, h3], by omega⟩
          · intro _; trivial
        · have h3f : r.unlockOk = false := by simpa using h3
          simp only [h1, h2, h3f, Bool.not_true, Bool.false_eq_true, if_false]
          rw [ih]
          constructor
          · rintro ⟨k, hk, hgood, hbad⟩
            refine ⟨k + 1, Nat.succ_lt_succ hk, by simpa using hgood, ?_⟩
            intro j hj
            match j, hj with
            | 0, _ => simp [List.getD_cons_zero, h1, h2, h3f]
            | j + 1, hj => simpa using hbad j (Nat.lt_of_succ_lt_succ hj)
          · rintro ⟨k, hk, hgood, hbad⟩
            match k, hk, hgood with
            | 0, _, hgood => simp [List.getD_cons_zero, h3f] at hgood
            | k + 1, hk, hgood =>
              refine ⟨k, Nat.lt_of_succ_lt_succ hk, by simpa using hgood, ?_⟩
              intro j hj
              simpa using hbad (j + 1) (Nat.succ_lt_succ hj)
      · have h2f : r.decryptOk = false := by simpa using h2
        simp only [h1, h2f, Bool.not_true, Bool.not_false, Bool.false_eq_true, if_false, if_true]
        constructor
        · intro h; cases h
        · rintro ⟨k, hk, hgood, hbad⟩
          match k, hk, hgood with
          | 0, _, hgood => simp [List.getD_cons_zero, h2f] at hgood
          | k + 1, hk, hgood =>
            have := hbad 0 (Nat.succ_pos _)
            simp [List.getD_cons_zero, h2f] at this
    · have h1f : r.setKeyOk = false := by simpa using h1
      simp only [h1f, Bool.not_false, if_true]
      constructor
      · intro h; cases h
      · rintro ⟨k, hk, hgood, hbad⟩
        match k, hk, hgood with
        | 0, _, hgood => simp [List.getD_cons_zero, h1f] at hgood
        | k + 1, hk, hgood =>
          have := hbad 0 (Nat.succ_pos _)
          simp [List.getD_cons_zero, h1f] at this

/-- C4 (amended): `Wallet::Unlock` returns `true` exactly when the wallet is
locked and some stored master key derives, decrypts and validates while every
earlier record derives and decrypts but fails keystore validation; a record
whose derivation or decryption fails aborts the whole loop with `false`. -/
theorem unlockWallet_true_iff (locked : Bool) (recs : List MasterKeyTrial) :
    unlockWallet locked recs = true ↔
      locked = true ∧
      ∃ k, k < recs.length ∧
        ((recs.getD k masterKeyTrialDefault).setKeyOk = true ∧
         (recs.getD k masterKeyTrialDefault).decryptOk = true ∧
         (recs.getD k masterKeyTrialDefault).unlockOk = true) ∧
        ∀ j, j < k →
          ((recs.getD j masterKeyTrialDefault).setKeyOk = true ∧
           (recs.getD j masterKeyTrialDefault).decryptOk = true ∧
           (recs.getD j masterKeyTrialDefault).unlockOk = false) := by
  cases locked with
  | false => simp [unlockWallet]
  | true => simp [unlockWallet, unlockLoop_true_iff]

/-! ### C2: the confirmation walker's mapPrev keying bug -/

/-- C2: at a self-originated, final, depth-0 transaction whose single input
spends a depth-2 parent recorded in `vtxPrev`, the code's walk fails (its
`mapPrev` is keyed by the outer transaction's own hash, so the parent lookup
misses) while the specified walk confirms the transaction: the code diverges
from the claim's recursive-ancestor policy. -/
theorem isConfirmed_mapPrev_bug :
    isConfirmedCode envBug wtxChild 10 = some false ∧
    isConfirmedIntended envBug wtxChild 10 = some true := ⟨rfl, rfl⟩

/-! ### C6: SelectCoins tries confirmation tuples in order -/

/-- C6: `Wallet::SelectCoins` runs `SelectCoinsMinConf` with confirmation
tuples (1,6), then (1,1), then (0,1), returns the result of the first call
that succeeds, and fails exactly when all three fail. -/
theorem selectCoins_order (env : Env) (nT cent : Int) (v1 v2 v3 : List WTx)
    (f1 f2 f3 : Nat → Nat → Bool) :
    ((selectCoinsMinConf env nT cent 1 6 v1 f1).success = true →
      selectCoins env nT cent v1 v2 v3 f1 f2 f3 = selectCoinsMinConf env nT cent 1 6 v1 f1) ∧
    ((selectCoinsMinConf env nT cent 1 6 v1 f1).success = false →
      (selectCoinsMinConf env nT cent 1 1 v2 f2).success = true →
      selectCoins env nT cent v1 v2 v3 f1 f2 f3 = selectCoinsMinConf env nT cent 1 1 v2 f2) ∧
    ((selectCoinsMinConf env nT cent 1 6 v1 f1).success = false →
      (selectCoinsMinConf env nT cent 1 1 v2 f2).success = false →
      selectCoins env nT cent v1 v2 v3 f1 f2 f3 = selectCoinsMinConf env nT cent 0 1 v3 f3) ∧
    ((selectCoins env nT cent v1 v2 v3 f1 f2 f3).success = false ↔
      ((selectCoinsMinConf env nT cent 1 6 v1 f1).success = false ∧
       (selectCoinsMinConf env nT cent 1 1 v2 f2).success = false ∧
       (selectCoinsMinConf env nT cent 0 1 v3 f3).success = false)) := by
  refine ⟨?_, ?_, ?_, ?_⟩
  · intro h1; simp [selectCoins, h1]
  · intro h1 h2; simp [selectCoins, h1, h2]
  · intro h1 h2; simp [selectCoins, h1, h2]
  · cases h1 : (selectCoinsMinConf env nT cent 1 6 v1 f1).success <;>
      cases h2 : (selectCoinsMinConf env nT cent 1 1 v2 f2).success <;>
      simp [selectCoins, h1, h2]

/-- Witness for C6: with an empty wallet all three calls fail, so `SelectCoins`
returns the third result. -/
theorem selectCoins_order_witness :
    selectCoins envOpen 80 1000000 [] [] [] (fun _ _ => false) (fun _ _ => false)
      (fun _ _ => false) =
    selectCoinsMinConf envOpen 80 1000000 0 1 [] (fun _ _ => false) :=
  (selectCoins_order envOpen 80 1000000 [] [] [] (fun _ _ => false) (fun _ _ => false)
    (fun _ _ => false)).2.2.1 (by decide) (by decide)

/-! ### C7: the {30, 50, 120} example -/

/-- C7: a wallet of three eligible unspent coins of values 30, 50 and 120 (in
units where CENT = 1) with target 80 yields the pair {30, 50} summing to
exactly 80 — never the 120 coin — for every shuffle order and every flip
stream, because the sum of the below-threshold candidates meets the target
exactly. -/
theorem selectCoinsMinConf_30_50_120 (l : List WTx) (flips : Nat → Nat → Bool)
    (hl : l.Perm [simpleCoin 1 30, simpleCoin 2 50, simpleCoin 3 120]) :
    (selectCoinsMinConf envOpen 80 1 1 6 l flips).success = true ∧
    (selectCoinsMinConf envOpen 80 1 1 6 l flips).coins.Perm
      [(simpleCoin 1 30, 0), (simpleCoin 2 50, 0)] ∧
    (selectCoinsMinConf envOpen 80 1 1 6 l flips).total = 80 := by
  have hlen : l.length = 3 := by simpa using hl.length_eq
  match l, hlen, hl with
  | [x, y, z], _, hl =>
    have hx : x ∈ [simpleCoin 1 30, simpleCoin 2 50, simpleCoin 3 120] := hl.subset (by simp)
    have hy : y ∈ [simpleCoin 1 30, simpleCoin 2 50, simpleCoin 3 120] := hl.subset (by simp)
    have hz : z ∈ [simpleCoin 1 30, simpleCoin 2 50, simpleCoin 3 120] := hl.subset (by simp)
    simp only [List.mem_cons, List.not_mem_nil, or_false] at hx hy hz
    rcases hx with rfl | rfl | rfl <;> rcases hy with rfl | rfl | rfl <;>
      rcases hz with rfl | rfl | rfl <;>
      first
        | exact absurd hl (by decide)
        | exact ⟨rfl, List.Perm.refl _, rfl⟩
        | exact ⟨rfl, List.Perm.swap _ _ _, rfl⟩

/-- Witness for C7 at the identity shuffle. -/
theorem selectCoinsMinConf_30_50_120_witness :
    (selectCoinsMinConf envOpen 80 1 1 6
        [simpleCoin 1 30, simpleCoin 2 50, simpleCoin 3 120] (fun _ _ => false)).success = true ∧
    (selectCoinsMinConf envOpen 80 1 1 6
        [simpleCoin 1 30, simpleCoin 2 50, simpleCoin 3 120] (fun _ _ => false)).coins.Perm
      [(simpleCoin 1 30, 0), (simpleCoin 2 50, 0)] ∧
    (selectCoinsMinConf envOpen 80 1 1 6
        [simpleCoin 1 30, simpleCoin 2 50, simpleCoin 3 120] (fun _ _ => false)).total = 80 :=
  selectCoinsMinConf_30_50_120 _ _ (List.Perm.refl _)

/-! ### C5: the exact-match property -/

theorem enumIdx_mem_getD {α : Type _} (d : α) :
    ∀ (l : List α) (k i : Nat) (a : α), (i, a) ∈ enumIdx k l →
      k ≤ i ∧ i - k < l.length ∧ l.getD (i - k) d = a := by
  intro l
  induction l with
  | nil => intro k i a h; simp [enumIdx] at h
  | cons x xs ih =>
    intro k i a h
    simp only [enumIdx, List.mem_cons] at h
    rcases h with h | h
    · obtain ⟨rfl, rfl⟩ := Prod.mk.injEq .. |>.mp h
      exact ⟨le_refl _, by simp, by simp⟩
    · obtain ⟨h1, h2, h3⟩ := ih (k + 1) i a h
      refine ⟨by omega, by simp; omega, ?_⟩
      have hik : i - k = (i - (k + 1)) + 1 := by omega
      rw [hik]
      simpa using h3

/-- Any early return of the output scan is a singleton exact match. -/
theorem scanOuts_inr (target cent : Int) (w : WTx) :
    ∀ (outs : List (Nat × TxOut)) (st : ScanSt) (r : SelRes),
      scanOuts target cent w outs st = Sum.inr r →
      ∃ i out, (i, out) ∈ outs ∧ out.nValue = target ∧
        r = { success := true, coins := [(w, i)], total := target } := by
  intro outs
  induction outs with
  | nil => intro st r h; simp [scanOuts] at h
  | cons p rest ih =>
    intro st r h
    obtain ⟨j, o⟩ := p
    simp only [scanOuts] at h
    split at h
    · obtain ⟨i1, o1, hmem, hv, hr⟩ := ih _ _ h
      exact ⟨i1, o1, by simp [hmem], hv, hr⟩
    · split at h
      · obtain ⟨i1, o1, hmem, hv, hr⟩ := ih _ _ h
        exact ⟨i1, o1, by simp [hmem], hv, hr⟩
      · split at h
        · rename_i hval
          refine ⟨j, o, by simp, hval, ?_⟩
          cases h
          simp [hval]
        · split at h
          · obtain ⟨i1, o1, hmem, hv, hr⟩ := ih _ _ h
            exact ⟨i1, o1, by simp [hmem], hv, hr⟩
          · split at h
            · obtain ⟨i1, o1, hmem, hv, hr⟩ := ih _ _ h
              exact ⟨i1, o1, by simp [hmem], hv, hr⟩
            · obtain ⟨i1, o1, hmem, hv, hr⟩ := ih _ _ h
              exact ⟨i1, o1, by simp [hmem], hv, hr⟩

/-- If the outputs contain an unspent, owned, exact-value entry, the output
scan returns early. -/
theorem scanOuts_exact (target cent : Int) (w : WTx) (hpos : 0 < target) :
    ∀ (outs : List (Nat × TxOut)) (st : ScanSt),
      (∃ i out, (i, out) ∈ outs ∧ w.vfSpent.getD i false = false ∧ out.isMine = true ∧
        out.nValue = target) →
      ∃ r, scanOuts target cent w outs st = Sum.inr r := by
  intro outs
  induction outs with
  | nil =>
    rintro st ⟨i, out, h, -, -, -⟩
    simp at h
  | cons p rest ih =>
    rintro st ⟨i, out, hmem, hsp, hmine, hval⟩
    obtain ⟨j, o⟩ := p
    rcases List.mem_cons.mp hmem with heq | hmem'
    · obtain ⟨rfl, rfl⟩ := Prod.mk.injEq .. |>.mp heq
      refine ⟨{ success := true, coins := [(w, i)], total := out.nValue }, ?_⟩
      simp only [scanOuts, hsp, hmine, Bool.not_true, Bool.or_self, Bool.false_eq_true,
        if_false]
      rw [if_neg (by rw [hval]; exact not_le.mpr hpos), if_pos hval]
    · simp only [scanOuts]
      split
      · exact ih st ⟨i, out, hmem', hsp, hmine, hval⟩
      · split
        · exact ih st ⟨i, out, hmem', hsp, hmine, hval⟩
        · split
          · exact ⟨_, rfl⟩
          · split
            · exact ih _ ⟨i, out, hmem', hsp, hmine, hval⟩
            · split
              · exact ih _ ⟨i, out, hmem', hsp, hmine, hval⟩
              · exact ih _ ⟨i, out, hmem', hsp, hmine, hval⟩

/-- Unfolding of the record scan at a cons, with the three skip conditions
combined into one guard. -/
theorem scanCoins_cons (env : Env) (target cent confMine confTheirs : Int) (w : WTx)
    (rest : List WTx) (st : ScanSt) :
    scanCoins env target cent confMine confTheirs (w :: rest) st =
      if (!env.isFinal w.tx.hash || !env.confirmed w.tx.hash) = true
         ∨ (w.isCoinBase ∧ 0 < env.blocksToMaturity w.tx.hash)
         ∨ env.depth w.tx.hash < (if env.isFromMe w.tx.hash then confMine else confTheirs) then
        scanCoins env target cent confMine confTheirs rest st
      else
        match scanOuts target cent w (enumIdx 0 w.vout) st with
        | Sum.inl st1 => scanCoins env target cent confMine confTheirs rest st1
        | Sum.inr r => Sum.inr r := by
  by_cases h1 : (!env.isFinal w.tx.hash || !env.confirmed w.tx.hash) = true
  · simp [scanCoins, h1]
  · by_cases h2 : w.isCoinBase = true ∧ 0 < env.blocksToMaturity w.tx.hash
    · simp [scanCoins, h1, h2]
    · by_cases h3 : env.depth w.tx.hash <
          (if env.isFromMe w.tx.hash = true then confMine else confTheirs)
      · simp [scanCoins, h1, h2, h3]
      · simp [scanCoins, h1, h2, h3]

/-- Any early return of the record scan is a singleton whose wallet value and
reported total both equal the target. -/
theorem scanCoins_inr (env : Env) (target cent confMine confTheirs : Int) :
    ∀ (coins : List WTx) (st : ScanSt) (r : SelRes),
      scanCoins env target cent confMine confTheirs coins st = Sum.inr r →
      ∃ w1 i1, r = { success := true, coins := [(w1, i1)], total := target } ∧
        (w1.vout.getD i1 txOutDefault).nValue = target := by
  intro coins
  induction coins with
  | nil => intro st r h; simp [scanCoins] at h
  | cons w rest ih =>
    intro st r h
    rw [scanCoins_cons] at h
    by_cases hc : (!env.isFinal w.tx.hash || !env.confirmed w.tx.hash) = true
        ∨ (w.isCoinBase ∧ 0 < env.blocksToMaturity w.tx.hash)
        ∨ env.depth w.tx.hash < (if env.isFromMe w.tx.hash then confMine else confTheirs)
    · rw [if_pos hc] at h
      exact ih _ _ h
    · rw [if_neg hc] at h
      revert h
      cases hscan : scanOuts target cent w (enumIdx 0 w.vout) st with
      | inl st1 => intro h; exact ih _ _ h
      | inr r0 =>
        intro h
        have h2 : (Sum.inr r0 : ScanSt ⊕ SelRes) = Sum.inr r := h
        obtain rfl : r0 = r := Sum.inr.inj h2
        obtain ⟨i1, o1, hmem, hv, hr⟩ := scanOuts_inr target cent w _ _ _ hscan
        obtain ⟨-, hlt, hget⟩ := enumIdx_mem_getD txOutDefault w.vout 0 i1 o1 hmem
        rw [Nat.sub_zero] at hget
        refine ⟨w, i1, hr, ?_⟩
        rw [hget]
        exact hv

/-- If some record in the scan list is eligible and holds an unspent, owned,
exact-value output, the record scan returns early. -/
theorem scanCoins_exact (env : Env) (target cent confMine confTheirs : Int) (w : WTx)
    (hpos : 0 < target)
    (hfin : env.isFinal w.tx.hash = true) (hcf : env.confirmed w.tx.hash = true)
    (hmat : ¬(w.isCoinBase = true ∧ 0 < env.blocksToMaturity w.tx.hash))
    (hdep : ¬(env.depth w.tx.hash < (if env.isFromMe w.tx.hash then confMine else confTheirs)))
    (hex : ∃ i out, (i, out) ∈ enumIdx 0 w.vout ∧ w.vfSpent.getD i false = false ∧
      out.isMine = true ∧ out.nValue = target) :
    ∀ (coins : List WTx) (st : ScanSt), w ∈ coins →
      ∃ r, scanCoins env target cent confMine confTheirs coins st = Sum.inr r := by
  have hskip : ¬((!env.isFinal w.tx.hash || !env.confirmed w.tx.hash) = true
      ∨ (w.isCoinBase ∧ 0 < env.blocksToMaturity w.tx.hash)
      ∨ env.depth w.tx.hash < (if env.isFromMe w.tx.hash then confMine else confTheirs)) := by
    rintro (hbad | hbad | hbad)
    · simp [hfin, hcf] at hbad
    · exact hmat hbad
    · exact hdep hbad
  intro coins
  induction coins with
  | nil => intro st h; simp at h
  | cons w0 rest ih =>
    intro st hmem
    rcases List.mem_cons.mp hmem with rfl | hmem'
    · rw [scanCoins_cons, if_neg hskip]
      obtain ⟨r, hr⟩ := scanOuts_exact target cent w hpos (enumIdx 0 w.vout) st hex
      rw [hr]
      exact ⟨r, rfl⟩
    · rw [scanCoins_cons]
      by_cases hc : (!env.isFinal w0.tx.hash || !env.confirmed w0.tx.hash) = true
          ∨ (w0.isCoinBase ∧ 0 < env.blocksToMaturity w0.tx.hash)
          ∨ env.depth w0.tx.hash < (if env.isFromMe w0.tx.hash then confMine else confTheirs)
      · rw [if_pos hc]
        exact ih st hmem'
      · rw [if_neg hc]
        cases hscan : scanOuts target cent w0 (enumIdx 0 w0.vout) st with
        | inl st1 => exact ih st1 hmem'
        | inr r0 => exact ⟨r0, rfl⟩

/-- C5: whenever the candidate set contains an eligible record with an
unspent, owned output whose value equals the (positive) target,
`SelectCoinsMinConf` returns exactly one coin, of value equal to the target,
with `nValueRet` equal to the target — for every shuffle order and flip
stream. -/
theorem selectCoinsMinConf_exact_match (env : Env) (target cent confMine confTheirs : Int)
    (vCoins : List WTx) (flips : Nat → Nat → Bool) (w : WTx) (i : Nat) (out : TxOut)
    (hw : w ∈ vCoins)
    (hfin : env.isFinal w.tx.hash = true) (hcf : env.confirmed w.tx.hash = true)
    (hmat : ¬(w.isCoinBase = true ∧ 0 < env.blocksToMaturity w.tx.hash))
    (hdep : ¬(env.depth w.tx.hash < (if env.isFromMe w.tx.hash then confMine else confTheirs)))
    (hout : (i, out) ∈ enumIdx 0 w.vout)
    (hsp : w.vfSpent.getD i false = false) (hmine : out.isMine = true)
    (hval : out.nValue = target) (hpos : 0 < target) :
    ∃ w1 i1,
      selectCoinsMinConf env target cent confMine confTheirs vCoins flips =
        { success := true, coins := [(w1, i1)], total := target } ∧
      (w1.vout.getD i1 txOutDefault).nValue = target := by
  obtain ⟨r, hr⟩ := scanCoins_exact env target cent confMine confTheirs w hpos hfin hcf hmat hdep
    ⟨i, out, hout, hsp, hmine, hval⟩ vCoins scanSt0 hw
  obtain ⟨w1, i1, rfl, hcoh⟩ := scanCoins_inr env target cent confMine confTheirs _ _ _ hr
  refine ⟨w1, i1, ?_, hcoh⟩
  simp [selectCoinsMinConf, hr]

/-! ### C1 and C10: selector output contract.  The proof follows the phases of
`SelectCoinsMinConf`: the scan preserves `ScanInv`, the stochastic trials
preserve `BestInv`, and every return branch then satisfies `ResOk`. -/

theorem getD_append_lt {α : Type _} (d : α) :
    ∀ (l1 l2 : List α) (i : Nat), i < l1.length → (l1 ++ l2).getD i d = l1.getD i d := by
  intro l1
  induction l1 with
  | nil => intro l2 i h; simp at h
  | cons x xs ih =>
    intro l2 i h
    cases i with
    | zero => simp
    | succ j => simpa using ih l2 j (by simpa using h)

theorem getD_append_self {α : Type _} (d : α) :
    ∀ (l1 : List α) (a : α), (l1 ++ [a]).getD l1.length d = a := by
  intro l1 a
  induction l1 with
  | nil => rfl
  | cons x xs ih => simp [ih]

theorem getD_mem_of_lt {α : Type _} (d : α) :
    ∀ (l : List α) (i : Nat), i < l.length → l.getD i d ∈ l := by
  intro l
  induction l with
  | nil => intro i h; simp at h
  | cons x xs ih =>
    intro i h
    cases i with
    | zero => simp
    | succ j =>
      simp only [List.getD_cons_succ]
      exact List.mem_cons_of_mem x (ih j (by simpa using h))

theorem enumIdx_append {α : Type _} :
    ∀ (l1 l2 : List α) (k : Nat),
      enumIdx k (l1 ++ l2) = enumIdx k l1 ++ enumIdx (k + l1.length) l2 := by
  intro l1
  induction l1 with
  | nil => intro l2 k; simp [enumIdx]
  | cons x xs ih =>
    intro l2 k
    simp only [List.cons_append, enumIdx, List.length_cons, List.append_eq]
    rw [ih l2 (k + 1), show k + 1 + xs.length = k + (xs.length + 1) by omega]

theorem enumIdx_fst_nodup {α : Type _} (d : α) :
    ∀ (l : List α) (k : Nat), ((enumIdx k l).map Prod.fst).Nodup := by
  intro l
  induction l with
  | nil => intro k; simp [enumIdx]
  | cons x xs ih =>
    intro k
    simp only [enumIdx, List.map_cons, List.nodup_cons]
    refine ⟨?_, ih (k + 1)⟩
    intro hk
    obtain ⟨p, hp, hfst⟩ := List.mem_map.mp hk
    obtain ⟨i, a⟩ := p
    obtain ⟨hge, -, -⟩ := enumIdx_mem_getD d xs (k + 1) i a hp
    simp only at hfst
    omega

theorem map_sum_congr {α : Type _} (f g : α → Int) :
    ∀ (l : List α), (∀ a ∈ l, f a = g a) → (l.map f).sum = (l.map g).sum := by
  intro l
  induction l with
  | nil => intro _; rfl
  | cons x xs ih =>
    intro h
    simp only [List.map_cons, List.sum_cons]
    rw [h x (List.mem_cons_self ..), ih (fun a ha => h a (List.mem_cons_of_mem x ha))]

theorem insertValueDesc_perm (c : Candidate) :
    ∀ (l : List Candidate), (insertValueDesc c l).Perm (c :: l) := by
  intro l
  induction l with
  | nil => exact List.Perm.refl _
  | cons x xs ih =>
    simp only [insertValueDesc]
    split
    · exact List.Perm.refl _
    · exact (ih.cons x).trans (List.Perm.swap c x xs)

theorem sortValueDesc_perm : ∀ (l : List Candidate), (sortValueDesc l).Perm l := by
  intro l
  induction l with
  | nil => exact List.Perm.refl _
  | cons x xs ih => exact (insertValueDesc_perm x (sortValueDesc xs)).trans (ih.cons x)

theorem sum_range_getD (l : List Candidate) :
    ∑ i in Finset.range l.length, (l.getD i candDefault).value = (l.map Candidate.value).sum := by
  induction l with
  | nil => simp
  | cons c cs ih =>
    rw [List.length_cons, Finset.sum_range_succ']
    simp only [List.getD_cons_succ, List.getD_cons_zero, List.map_cons, List.sum_cons]
    rw [ih, add_comm]

theorem pickedEntries_sum (s : Finset Nat) :
    ∀ (l : List Candidate),
      ((pickedEntries l s).map fun p => p.2.value).sum =
        ∑ i in Finset.range l.length, (if i ∈ s then (l.getD i candDefault).value else 0) := by
  intro l
  induction l using List.reverseRecOn with
  | nil => simp [pickedEntries, enumIdx]
  | append_singleton xs c ih =>
    have henum : enumIdx 0 (xs ++ [c]) = enumIdx 0 xs ++ [(xs.length, c)] := by
      rw [enumIdx_append]
      simp [enumIdx]
    rw [show pickedEntries (xs ++ [c]) s =
        (enumIdx 0 xs ++ [(xs.length, c)]).filter (fun p => decide (p.1 ∈ s)) from by
      rw [pickedEntries, henum]]
    rw [List.filter_append, List.map_append, List.sum_append, List.length_append]
    simp only [List.length_singleton]
    rw [Finset.sum_range_succ]
    rw [pickedEntries] at ih
    rw [ih]
    congr 1
    · refine Finset.sum_congr rfl (fun i hi => ?_)
      rw [getD_append_lt candDefault xs [c] i (Finset.mem_range.mp hi)]
    · rw [getD_append_self]
      by_cases hm : xs.length ∈ s <;> simp [hm]

theorem sum_filter_range_of_subset (s : Finset Nat) (n : Nat) (hs : s ⊆ Finset.range n)
    (f : Nat → Int) :
    ∑ i in Finset.range n, (if i ∈ s then f i else 0) = ∑ i in s, f i := by
  rw [← Finset.sum_filter]
  congr 1
  ext i
  simp only [Finset.mem_filter, Finset.mem_range]
  exact ⟨fun h => h.2, fun h => ⟨Finset.mem_range.mp (hs h), h⟩⟩

theorem doPass_inv_of_disjoint (tgt : Int) (l : List Candidate) (pick : Nat → Finset Nat → Bool) :
    ∀ (entries : List (Nat × Candidate)) (st : TrialSt),
      (∀ p ∈ entries, l.getD p.1 candDefault = p.2 ∧ p.1 < l.length) →
      (entries.map Prod.fst).Nodup →
      (∀ p ∈ entries, p.1 ∉ st.included) →
      TrialInv tgt l st → TrialInv tgt l (doPass tgt pick entries st) := by
  intro entries
  induction entries with
  | nil => intro st _ _ _ h; exact h
  | cons e rest ih =>
    intro st hcoh hnd hdisj hinv
    obtain ⟨i, c⟩ := e
    obtain ⟨hget, hlt⟩ := hcoh (i, c) (List.mem_cons_self ..)
    have hni : i ∉ st.included := hdisj (i, c) (List.mem_cons_self ..)
    have hnd2 : (∀ x : Candidate, (i, x) ∉ rest) ∧ (rest.map Prod.fst).Nodup := by
      simpa using hnd
    have hcohr : ∀ p ∈ rest, l.getD p.1 candDefault = p.2 ∧ p.1 < l.length :=
      fun p hp => hcoh p (List.mem_cons_of_mem _ hp)
    obtain ⟨htot, hsub, hb1, hb2, hb3⟩ := hinv
    simp only [doPass]
    by_cases hp : pick i st.included = true
    · rw [if_pos hp]
      by_cases hle : tgt ≤ st.total + c.value
      · rw [if_pos hle]
        refine ih _ hcohr hnd2.2 ?_ ?_
        · intro p hp2
          show p.1 ∉ (insert i st.included).erase i
          rw [Finset.erase_insert hni]
          exact hdisj p (List.mem_cons_of_mem _ hp2)
        · refine ⟨?_, ?_, ?_⟩
          · show st.total + c.value - c.value = sumIdx l ((insert i st.included).erase i)
            rw [Finset.erase_insert hni, add_sub_cancel_right]
            exact htot
          · show (insert i st.included).erase i ⊆ Finset.range l.length
            rw [Finset.erase_insert hni]
            exact hsub
          · by_cases hbt : st.total + c.value < st.best
            · rw [if_pos hbt]
              refine ⟨?_, ?_, hle⟩
              · show st.total + c.value = sumIdx l (insert i st.included)
                rw [sumIdx, Finset.sum_insert hni, hget, htot, sumIdx, add_comm]
              · exact Finset.insert_subset_iff.mpr ⟨Finset.mem_range.mpr hlt, hsub⟩
            · rw [if_neg hbt]
              exact ⟨hb1, hb2, hb3⟩
      · rw [if_neg hle]
        refine ih _ hcohr hnd2.2 ?_ ?_
        · intro p hp2
          show p.1 ∉ insert i st.included
          intro hmem
          rcases Finset.mem_insert.mp hmem with heq | hmem2
          · obtain ⟨p1, p2⟩ := p
            exact hnd2.1 p2 (heq ▸ hp2)
          · exact hdisj p (List.mem_cons_of_mem _ hp2) hmem2
        · refine ⟨?_, ?_, hb1, hb2, hb3⟩
          · show st.total + c.value = sumIdx l (insert i st.included)
            rw [sumIdx, Finset.sum_insert hni, hget, htot, sumIdx, add_comm]
          · exact Finset.insert_subset_iff.mpr ⟨Finset.mem_range.mpr hlt, hsub⟩
    · rw [if_neg hp]
      exact ih st hcohr hnd2.2 (fun p hp2 => hdisj p (List.mem_cons_of_mem _ hp2))
        ⟨htot, hsub, hb1, hb2, hb3⟩

theorem doPass_inv_of_pick_notmem (tgt : Int) (l : List Candidate) :
    ∀ (entries : List (Nat × Candidate)) (st : TrialSt),
      (∀ p ∈ entries, l.getD p.1 candDefault = p.2 ∧ p.1 < l.length) →
      TrialInv tgt l st →
      TrialInv tgt l (doPass tgt (fun i s => decide (i ∉ s)) entries st) := by
  intro entries
  induction entries with
  | nil => intro st _ h; exact h
  | cons e rest ih =>
    intro st hcoh hinv
    obtain ⟨i, c⟩ := e
    obtain ⟨hget, hlt⟩ := hcoh (i, c) (List.mem_cons_self ..)
    have hcohr : ∀ p ∈ rest, l.getD p.1 candDefault = p.2 ∧ p.1 < l.length :=
      fun p hp => hcoh p (List.mem_cons_of_mem _ hp)
    obtain ⟨htot, hsub, hb1, hb2, hb3⟩ := hinv
    simp only [doPass]
    by_cases hni : i ∈ st.included
    · rw [if_neg (by simp [hni])]
      exact ih st hcohr ⟨htot, hsub, hb1, hb2, hb3⟩
    · rw [if_pos (by simp [hni])]
      by_cases hle : tgt ≤ st.total + c.value
      · rw [if_pos hle]
        refine ih _ hcohr ?_
        refine ⟨?_, ?_, ?_⟩
        · show st.total + c.value - c.value = sumIdx l ((insert i st.included).erase i)
          rw [Finset.erase_insert hni, add_sub_cancel_right]
          exact htot
        · show (insert i st.included).erase i ⊆ Finset.range l.length
          rw [Finset.erase_insert hni]
          exact hsub
        · by_cases hbt : st.total + c.value < st.best
          · rw [if_pos hbt]
            refine ⟨?_, ?_, hle⟩
            · show st.total + c.value = sumIdx l (insert i st.included)
              rw [sumIdx, Finset.sum_insert hni, hget, htot, sumIdx, add_comm]
            · exact Finset.insert_subset_iff.mpr ⟨Finset.mem_range.mpr hlt, hsub⟩
          · rw [if_neg hbt]
            exact ⟨hb1, hb2, hb3⟩
      · rw [if_neg hle]
        refine ih _ hcohr ⟨?_, ?_, hb1, hb2, hb3⟩
        · show st.total + c.value = sumIdx l (insert i st.included)
          rw [sumIdx, Finset.sum_insert hni, hget, htot, sumIdx, add_comm]
        · exact Finset.insert_subset_iff.mpr ⟨Finset.mem_range.mpr hlt, hsub⟩

theorem runTrial_bestInv (tgt : Int) (l : List Candidate) (flip : Nat → Bool)
    (acc : Int × Finset Nat) (h : BestInv tgt l acc) :
    BestInv tgt l (runTrial tgt l flip acc.1 acc.2) := by
  obtain ⟨h1, h2, h3⟩ := h
  have hcoh : ∀ p ∈ enumIdx 0 l, l.getD p.1 candDefault = p.2 ∧ p.1 < l.length := by
    intro p hp
    obtain ⟨i, a⟩ := p
    obtain ⟨-, hlt, hget⟩ := enumIdx_mem_getD candDefault l 0 i a hp
    rw [Nat.sub_zero] at hlt hget
    exact ⟨hget, hlt⟩
  have hst0 : TrialInv tgt l ⟨∅, 0, false, acc.1, acc.2⟩ := by
    refine ⟨?_, Finset.empty_subset _, h1, h2, h3⟩
    simp [sumIdx]
  have hst1 := doPass_inv_of_disjoint tgt l (fun i _ => flip i) (enumIdx 0 l) _ hcoh
    (enumIdx_fst_nodup candDefault l 0) (fun p _ => Finset.not_mem_empty _) hst0
  simp only [runTrial]
  split
  · exact hst1.2.2
  · exact (doPass_inv_of_pick_notmem tgt l (enumIdx 0 l) _ hcoh hst1).2.2

theorem repLoop_bestInv (tgt : Int) (l : List Candidate) (flips : Nat → Nat → Bool) :
    ∀ (fuel rep : Nat) (acc : Int × Finset Nat),
      BestInv tgt l acc → BestInv tgt l (repLoop tgt l flips fuel rep acc) := by
  intro fuel
  induction fuel with
  | zero => intro rep acc h; exact h
  | succ n ih =>
    intro rep acc h
    simp only [repLoop]
    split
    · exact h
    · exact ih (rep + 1) _ (runTrial_bestInv tgt l (flips rep) acc h)

/-- Witness for C5: a single eligible coin of value 80 with target 80 under
the real CENT. -/
theorem selectCoinsMinConf_exact_match_witness :
    ∃ w1 i1,
      selectCoinsMinConf envOpen 80 1000000 1 6 [simpleCoin 7 80] (fun _ _ => true) =
        { success := true, coins := [(w1, i1)], total := 80 } ∧
      (w1.vout.getD i1 txOutDefault).nValue = 80 :=
  selectCoinsMinConf_exact_match envOpen 80 1000000 1 6 [simpleCoin 7 80] (fun _ _ => true)
    (simpleCoin 7 80) 0 { nValue := 80, isMine := true }
    (by simp) rfl rfl (by decide) (by decide) (by simp [enumIdx, simpleCoin, wtxDefault])
    rfl rfl rfl (by decide)

theorem sumCoins_singleton (p : WTx × Nat) :
    sumCoins [p] = (p.1.vout.getD p.2 txOutDefault).nValue := by
  simp [sumCoins]

theorem scanOuts_inl (target cent : Int) (w : WTx) :
    ∀ (outs : List (Nat × TxOut)) (st st1 : ScanSt),
      scanOuts target cent w outs st = Sum.inl st1 →
      (∀ p ∈ outs, w.vout.getD p.1 txOutDefault = p.2) →
      ScanInv target cent st → ScanInv target cent st1 := by
  intro outs
  induction outs with
  | nil =>
    intro st st1 h _ hinv
    obtain rfl : st = st1 := Sum.inl.inj h
    exact hinv
  | cons p rest ih =>
    intro st st1 h hcoh hinv
    obtain ⟨i, out⟩ := p
    have hget : w.vout.getD i txOutDefault = out := hcoh (i, out) (List.mem_cons_self ..)
    have hcohr : ∀ q ∈ rest, w.vout.getD q.1 txOutDefault = q.2 :=
      fun q hq => hcoh q (List.mem_cons_of_mem _ hq)
    simp only [scanOuts] at h
    by_cases hb1 : (w.vfSpent.getD i false || !out.isMine) = true
    · rw [if_pos hb1] at h
      exact ih _ _ h hcohr hinv
    · rw [if_neg hb1] at h
      by_cases hb2 : out.nValue ≤ 0
      · rw [if_pos hb2] at h
        exact ih _ _ h hcohr hinv
      · rw [if_neg hb2] at h
        by_cases hb3 : out.nValue = target
        · rw [if_pos hb3] at h
          exact absurd h (by simp)
        · rw [if_neg hb3] at h
          by_cases hb4 : out.nValue < target + cent
          · rw [if_pos hb4] at h
            refine ih _ _ h hcohr ?_
            obtain ⟨hsum, hcohv, hll⟩ := hinv
            refine ⟨?_, ?_, hll⟩
            · show ((st.vValue ++ [({ value := out.nValue, wtx := w, idx := i } : Candidate)]).map
                  Candidate.value).sum = st.nTotalLower + out.nValue
              rw [List.map_append, List.sum_append, hsum]
              simp
            · intro c hc
              rcases List.mem_append.mp hc with hc1 | hc2
              · exact hcohv c hc1
              · have hc3 : c = ({ value := out.nValue, wtx := w, idx := i } : Candidate) := by
                  simpa using hc2
                subst hc3
                show (w.vout.getD i txOutDefault).nValue = out.nValue
                rw [hget]
          · rw [if_neg hb4] at h
            by_cases hb5 : out.nValue < st.llValue
            · rw [if_pos hb5] at h
              refine ih _ _ h hcohr ?_
              obtain ⟨hsum, hcohv, hll⟩ := hinv
              refine ⟨hsum, hcohv, ?_⟩
              intro q hq
              have hq2 : (w, i) = q := Option.some.inj hq
              subst hq2
              constructor
              · show (w.vout.getD i txOutDefault).nValue = out.nValue
                rw [hget]
              · exact not_lt.mp hb4
            · rw [if_neg hb5] at h
              exact ih _ _ h hcohr hinv

theorem scanCoins_inl (env : Env) (target cent confMine confTheirs : Int) :
    ∀ (coins : List WTx) (st st1 : ScanSt),
      scanCoins env target cent confMine confTheirs coins st = Sum.inl st1 →
      ScanInv target cent st → ScanInv target cent st1 := by
  intro coins
  induction coins with
  | nil =>
    intro st st1 h hinv
    obtain rfl : st = st1 := Sum.inl.inj h
    exact hinv
  | cons w rest ih =>
    intro st st1 h hinv
    rw [scanCoins_cons] at h
    by_cases hc : (!env.isFinal w.tx.hash || !env.confirmed w.tx.hash) = true
        ∨ (w.isCoinBase ∧ 0 < env.blocksToMaturity w.tx.hash)
        ∨ env.depth w.tx.hash < (if env.isFromMe w.tx.hash then confMine else confTheirs)
    · rw [if_pos hc] at h
      exact ih _ _ h hinv
    · rw [if_neg hc] at h
      revert h
      cases hscan : scanOuts target cent w (enumIdx 0 w.vout) st with
      | inl st2 =>
        intro h
        have hcoh : ∀ p ∈ enumIdx 0 w.vout, w.vout.getD p.1 txOutDefault = p.2 := by
          intro p hp
          obtain ⟨i, o⟩ := p
          obtain ⟨-, -, hget⟩ := enumIdx_mem_getD txOutDefault w.vout 0 i o hp
          simpa using hget
        exact ih _ _ h (scanOuts_inl target cent w _ _ _ hscan hcoh hinv)
      | inr r0 =>
        intro h
        have h2 : (Sum.inr r0 : ScanSt ⊕ SelRes) = Sum.inl st1 := h
        exact absurd h2 (by simp)

theorem scanInv_init (target cent : Int) : ScanInv target cent scanSt0 := by
  refine ⟨rfl, ?_, ?_⟩
  · intro c hc
    simp [scanSt0] at hc
  · intro p hp
    simp [scanSt0] at hp

/-- The selector's output contract, proved over every phase of
`SelectCoinsMinConf`: the claims C1 and C10 are projections of this. -/
theorem selectCoinsMinConf_resOk (env : Env) (target cent confMine confTheirs : Int)
    (vCoins : List WTx) (flips : Nat → Nat → Bool) :
    ResOk target cent (selectCoinsMinConf env target cent confMine confTheirs vCoins flips) := by
  cases hscan : scanCoins env target cent confMine confTheirs vCoins scanSt0 with
  | inr r =>
    obtain ⟨w1, i1, rfl, hcoh⟩ := scanCoins_inr env target cent confMine confTheirs _ _ _ hscan
    simp only [selectCoinsMinConf, hscan]
    constructor
    · intro _
      refine ⟨?_, fun _ => le_refl target⟩
      show target = sumCoins [(w1, i1)]
      rw [sumCoins_singleton]
      exact hcoh.symm
    · intro hfail
      simp at hfail
  | inl st =>
    have hinv := scanCoins_inl env target cent confMine confTheirs _ _ _ hscan
      (scanInv_init target cent)
    obtain ⟨hsum, hcohv, hll⟩ := hinv
    simp only [selectCoinsMinConf, hscan]
    by_cases h1 : st.nTotalLower = target ∨ st.nTotalLower = target + cent
    · rw [if_pos h1]
      constructor
      · intro _
        constructor
        · show (st.vValue.map Candidate.value).sum =
            sumCoins (st.vValue.map fun c => (c.wtx, c.idx))
          rw [sumCoins, List.map_map]
          exact (map_sum_congr _ Candidate.value st.vValue hcohv).symm
        · intro hcent
          show target ≤ (st.vValue.map Candidate.value).sum
          rw [hsum]
          rcases h1 with h1 | h1 <;> omega
      · intro hfail
        simp at hfail
    · rw [if_neg h1]
      by_cases h2 : st.nTotalLower < target + (if st.llCoin.isSome then cent else 0)
      · rw [if_pos h2]
        cases hopt : st.llCoin with
        | none =>
          simp only [hopt]
          exact ⟨fun hsucc => by simp at hsucc, fun _ => ⟨rfl, rfl⟩⟩
        | some p =>
          simp only [hopt]
          obtain ⟨hpv, hpge⟩ := hll p hopt
          constructor
          · intro _
            refine ⟨?_, fun hcent => ?_⟩
            · show st.llValue = sumCoins [p]
              rw [sumCoins_singleton]
              exact hpv.symm
            · show target ≤ st.llValue
              omega
          · intro hfail
            simp at hfail
      · rw [if_neg h2]
        have hperm := sortValueDesc_perm st.vValue
        have hcoh2 : ∀ c ∈ sortValueDesc st.vValue,
            (c.wtx.vout.getD c.idx txOutDefault).nValue = c.value :=
          fun c hc => hcohv c (hperm.subset hc)
        have hsum2 : ((sortValueDesc st.vValue).map Candidate.value).sum = st.nTotalLower := by
          rw [← hsum]
          exact (hperm.map Candidate.value).sum_eq
        set sorted := sortValueDesc st.vValue with hsorteddef
        set tgtAdj := (if target + cent ≤ st.nTotalLower then target + cent else target : Int)
          with htgtdef
        have htgt_le_ntl : tgtAdj ≤ st.nTotalLower := by
          rw [htgtdef]
          split
          · rename_i hcl; exact hcl
          · rename_i hcl
            cases hopt : st.llCoin with
            | some p =>
              rw [hopt] at h2
              simp only [Option.isSome_some, if_true] at h2
              omega
            | none =>
              rw [hopt] at h2
              simp only [Option.isSome_none, Bool.false_eq_true, if_false] at h2
              omega
        have hstart : BestInv tgtAdj sorted (st.nTotalLower, Finset.range sorted.length) := by
          refine ⟨?_, Finset.Subset.refl _, htgt_le_ntl⟩
          show st.nTotalLower = sumIdx sorted (Finset.range sorted.length)
          rw [sumIdx, sum_range_getD, hsum2]
        have hrep := repLoop_bestInv tgtAdj sorted flips 1000 0 _ hstart
        set acc := repLoop tgtAdj sorted flips 1000 0
          (st.nTotalLower, Finset.range sorted.length) with haccdef
        obtain ⟨hb1, hb2, hb3⟩ := hrep
        have hfb_total : ((pickedEntries sorted acc.2).map fun p => p.2.value).sum = acc.1 := by
          rw [pickedEntries_sum, sum_filter_range_of_subset _ _ hb2 _]
          exact hb1.symm
        have hfb_coins : sumCoins ((pickedEntries sorted acc.2).map fun p => (p.2.wtx, p.2.idx))
            = ((pickedEntries sorted acc.2).map fun p => p.2.value).sum := by
          rw [sumCoins, List.map_map]
          refine map_sum_congr _ _ _ ?_
          intro p hp
          obtain ⟨i, c⟩ := p
          have hp2 : (i, c) ∈ enumIdx 0 sorted := List.mem_of_mem_filter hp
          obtain ⟨-, hlt, hget⟩ := enumIdx_mem_getD candDefault sorted 0 i c hp2
          rw [Nat.sub_zero] at hlt hget
          have hcmem : c ∈ sorted := hget ▸ getD_mem_of_lt candDefault sorted i hlt
          exact hcoh2 c hcmem
        have htadj : 0 ≤ cent → target ≤ tgtAdj := by
          intro hcent
          rw [htgtdef]
          split <;> omega
        cases hopt : st.llCoin with
        | some p =>
          simp only [hopt]
          obtain ⟨hpv, hpge⟩ := hll p hopt
          by_cases hcl : st.llValue - tgtAdj ≤ acc.1 - tgtAdj
          · rw [if_pos hcl]
            constructor
            · intro _
              refine ⟨?_, fun hcent => ?_⟩
              · show st.llValue = sumCoins [p]
                rw [sumCoins_singleton]
                exact hpv.symm
              · show target ≤ st.llValue
                omega
            · intro hfail
              simp at hfail
          · rw [if_neg hcl]
            constructor
            · intro _
              refine ⟨?_, fun hcent => ?_⟩
              · exact hfb_coins.symm
              · show target ≤ ((pickedEntries sorted acc.2).map fun p => p.2.value).sum
                rw [hfb_total]
                have := htadj hcent
                omega
            · intro hfail
              simp at hfail
        | none =>
          simp only [hopt]
          constructor
          · intro _
            refine ⟨?_, fun hcent => ?_⟩
            · exact hfb_coins.symm
            · show target ≤ ((pickedEntries sorted acc.2).map fun p => p.2.value).sum
              rw [hfb_total]
              have := htadj hcent
              omega
          · intro hfail
            simp at hfail

/-- C1: for every candidate set, target, shuffle order and stream of
subset-sum coin flips, a successful `SelectCoinsMinConf` reports a total
`nValueRet` of at least the requested target (CENT being non-negative); a
failed call reports `InsufficientFunds` instead. -/
theorem selectCoinsMinConf_ge_target (env : Env) (target cent confMine confTheirs : Int)
    (vCoins : List WTx) (flips : Nat → Nat → Bool) (hcent : 0 ≤ cent)
    (hsucc : (selectCoinsMinConf env target cent confMine confTheirs vCoins flips).success
      = true) :
    target ≤ (selectCoinsMinConf env target cent confMine confTheirs vCoins flips).total :=
  ((selectCoinsMinConf_resOk env target cent confMine confTheirs vCoins flips).1 hsucc).2 hcent

/-- Witness for C1 at a single coin of value 80, target 80, real CENT. -/
theorem selectCoinsMinConf_ge_target_witness :
    (0 : Int) ≤ 1000000 ∧
    (selectCoinsMinConf envOpen 80 1000000 1 6 [simpleCoin 7 80]
      (fun _ _ => true)).success = true ∧
    80 ≤ (selectCoinsMinConf envOpen 80 1000000 1 6 [simpleCoin 7 80] (fun _ _ => true)).total :=
  ⟨by decide, by decide,
    selectCoinsMinConf_ge_target envOpen 80 1000000 1 6 [simpleCoin 7 80] (fun _ _ => true)
      (by decide) (by decide)⟩

/-- C10: `SelectCoinsMinConf` clears its output parameters on entry, so on
every return `nValueRet` is exactly the sum of the wallet values of the coins
in `setCoinsRet`; in particular on failure the returned set is empty and the
total is 0. -/
theorem selectCoinsMinConf_total_exact (env : Env) (target cent confMine confTheirs : Int)
    (vCoins : List WTx) (flips : Nat → Nat → Bool) :
    (selectCoinsMinConf env target cent confMine confTheirs vCoins flips).total =
      sumCoins (selectCoinsMinConf env target cent confMine confTheirs vCoins flips).coins ∧
    ((selectCoinsMinConf env target cent confMine confTheirs vCoins flips).success = false →
      ((selectCoinsMinConf env target cent confMine confTheirs vCoins flips).coins = [] ∧
       (selectCoinsMinConf env target cent confMine confTheirs vCoins flips).total = 0)) := by
  have h := selectCoinsMinConf_resOk env target cent confMine confTheirs vCoins flips
  cases hsucc : (selectCoinsMinConf env target cent confMine confTheirs vCoins flips).success with
  | true =>
    obtain ⟨ht, -⟩ := h.1 hsucc
    refine ⟨ht, fun hf => ?_⟩
    simp at hf
  | false =>
    obtain ⟨hc, ht⟩ := h.2 hsucc
    refine ⟨?_, fun _ => ⟨hc, ht⟩⟩
    rw [hc, ht]
    rfl

/-- Witness for C10 on an empty wallet: the call fails and reports the empty
set and total 0. -/
theorem selectCoinsMinConf_total_exact_witness :
    (selectCoinsMinConf envOpen 80 1000000 1 6 [] (fun _ _ => false)).coins = [] ∧
    (selectCoinsMinConf envOpen 80 1000000 1 6 [] (fun _ _ => false)).total = 0 :=
  (selectCoinsMinConf_total_exact envOpen 80 1000000 1 6 [] (fun _ _ => false)).2 (by decide)

/-! ### C8: idempotence of Wallet::AddToWallet on mapWallet -/

theorem getD_set_self (d a : Bool) :
    ∀ (l : List Bool) (i : Nat), i < l.length → (l.set i a).getD i d = a := by
  intro l
  induction l with
  | nil => intro i h; simp at h
  | cons x xs ih =>
    intro i h
    cases i with
    | zero => rfl
    | succ j => simpa using ih j (by simpa using h)

theorem getD_set_ne (d a : Bool) :
    ∀ (l : List Bool) (i j : Nat), i ≠ j → (l.set i a).getD j d = l.getD j d := by
  intro l
  induction l with
  | nil => intro i j _; rfl
  | cons x xs ih =>
    intro i j hij
    cases i with
    | zero =>
      cases j with
      | zero => exact absurd rfl hij
      | succ j2 => rfl
    | succ i2 =>
      cases j with
      | zero => rfl
      | succ j2 => simpa using ih i2 j2 (fun he => hij (by rw [he]))

theorem set_oob (a : Bool) :
    ∀ (l : List Bool) (i : Nat), l.length ≤ i → l.set i a = l := by
  intro l
  induction l with
  | nil => intro i _; rfl
  | cons x xs ih =>
    intro i h
    cases i with
    | zero => simp at h
    | succ j => simpa using ih j (by simpa using h)

theorem getD_oob (d : Bool) :
    ∀ (l : List Bool) (i : Nat), l.length ≤ i → l.getD i d = d := by
  intro l
  induction l with
  | nil => intro i _; rfl
  | cons x xs ih =>
    intro i h
    cases i with
    | zero => simp at h
    | succ j => simpa using ih j (by simpa using h)

theorem lookupW_updateW_self (h : Nat) (w : WTx) :
    ∀ m, lookupW (updateW m h w) h = (lookupW m h).map (fun _ => w) := by
  intro m
  induction m with
  | nil => rfl
  | cons p rest ih =>
    by_cases hp : p.1 = h
    · show lookupW ((if p.1 = h then (h, w) else p) :: updateW rest h w) h = _
      rw [if_pos hp]
      rw [lookupW, List.find?_cons_of_pos _ (by simp), lookupW,
        List.find?_cons_of_pos _ (by simp [hp])]
      rfl
    · show lookupW ((if p.1 = h then (h, w) else p) :: updateW rest h w) h = _
      rw [if_neg hp]
      rw [lookupW, List.find?_cons_of_neg _ (by simp [hp]), lookupW,
        List.find?_cons_of_neg _ (by simp [hp])]
      exact ih

theorem lookupW_updateW_ne (h h2 : Nat) (w : WTx) (hne : h2 ≠ h) :
    ∀ m, lookupW (updateW m h w) h2 = lookupW m h2 := by
  intro m
  induction m with
  | nil => rfl
  | cons p rest ih =>
    by_cases hp : p.1 = h
    · show lookupW ((if p.1 = h then (h, w) else p) :: updateW rest h w) h2 = _
      rw [if_pos hp]
      rw [lookupW, List.find?_cons_of_neg _ (by simp [Ne.symm hne]), lookupW,
        List.find?_cons_of_neg _ (by simp [hp, Ne.symm hne])]
      exact ih
    · show lookupW ((if p.1 = h then (h, w) else p) :: updateW rest h w) h2 = _
      rw [if_neg hp]
      by_cases hp2 : p.1 = h2
      · rw [lookupW, List.find?_cons_of_pos _ (by simp [hp2]), lookupW,
          List.find?_cons_of_pos _ (by simp [hp2])]
      · rw [lookupW, List.find?_cons_of_neg _ (by simp [hp2]), lookupW,
          List.find?_cons_of_neg _ (by simp [hp2])]
        exact ih

theorem updateW_nokey (h : Nat) (w : WTx) :
    ∀ m, h ∉ m.map Prod.fst → updateW m h w = m := by
  intro m
  induction m with
  | nil => intro _; rfl
  | cons p rest ih =>
    intro hmem
    have hp : p.1 ≠ h := by
      intro he
      exact hmem (by simp [← he])
    show (if p.1 = h then (h, w) else p) :: updateW rest h w = p :: rest
    rw [if_neg hp, ih (fun hm => hmem (by simp [hm]))]

theorem updateW_self_eq (h : Nat) (w : WTx) :
    ∀ m, (m.map Prod.fst).Nodup → lookupW m h = some w → updateW m h w = m := by
  intro m
  induction m with
  | nil => intro _ hlk; cases hlk
  | cons p rest ih =>
    intro hnd hlk
    obtain ⟨p1, p2⟩ := p
    have hnd2 : p1 ∉ rest.map Prod.fst ∧ (rest.map Prod.fst).Nodup := by
      simpa using hnd
    by_cases hp : p1 = h
    · have hw : p2 = w := by
        rw [lookupW, List.find?_cons_of_pos _ (by simp [hp])] at hlk
        exact Option.some.inj hlk
      subst hp
      subst hw
      show (if p1 = p1 then (p1, p2) else (p1, p2)) :: updateW rest p1 p2 = (p1, p2) :: rest
      rw [if_pos rfl, updateW_nokey p1 p2 rest hnd2.1]
    · rw [lookupW, List.find?_cons_of_neg _ (by simp [hp])] at hlk
      show (if p1 = h then (h, w) else (p1, p2)) :: updateW rest h w = (p1, p2) :: rest
      rw [if_neg hp, ih hnd2.2 hlk]

theorem lookupW_none_iff (h : Nat) : ∀ m, lookupW m h = none ↔ h ∉ m.map Prod.fst := by
  intro m
  induction m with
  | nil => simp [lookupW]
  | cons p rest ih =>
    by_cases hp : p.1 = h
    · rw [lookupW, List.find?_cons_of_pos _ (by simp [hp])]
      simp [hp]
    · rw [lookupW, List.find?_cons_of_neg _ (by simp [hp])]
      rw [lookupW] at ih
      simp only [List.map_cons, List.mem_cons]
      rw [ih]
      constructor
      · intro hn hmem
        rcases hmem with hmem | hmem
        · exact hp hmem.symm
        · exact hn hmem
      · intro hn hmem
        exact hn (Or.inr hmem)

theorem lookupW_append_right (h : Nat) (w : WTx) :
    ∀ m, lookupW m h = none → lookupW (m ++ [(h, w)]) h = some w := by
  intro m
  induction m with
  | nil => intro _; rw [lookupW, List.nil_append, List.find?_cons_of_pos _ (by simp)]; rfl
  | cons p rest ih =>
    intro hlk
    by_cases hp : p.1 = h
    · rw [lookupW, List.find?_cons_of_pos _ (by simp [hp])] at hlk
      cases hlk
    · rw [lookupW, List.find?_cons_of_neg _ (by simp [hp])] at hlk
      rw [List.cons_append, lookupW, List.find?_cons_of_neg _ (by simp [hp])]
      rw [lookupW] at ih
      exact ih hlk

theorem updateW_keys (h : Nat) (w : WTx) :
    ∀ m, (updateW m h w).map Prod.fst = m.map Prod.fst := by
  intro m
  induction m with
  | nil => rfl
  | cons p rest ih =>
    show ((if p.1 = h then (h, w) else p) :: updateW rest h w).map Prod.fst = _
    by_cases hp : p.1 = h
    · rw [if_pos hp]
      simp only [List.map_cons, ih]
      rw [hp]
    · rw [if_neg hp]
      simp only [List.map_cons, ih]

theorem spentEvol_refl (w : WTx) : SpentEvol w w :=
  ⟨rfl, rfl, rfl, rfl, rfl, rfl, rfl, rfl, rfl, rfl, fun _ h => h⟩

theorem spentEvol_trans {a b c : WTx} (h1 : SpentEvol a b) (h2 : SpentEvol b c) :
    SpentEvol a c := by
  obtain ⟨a1, a2, a3, a4, a5, a6, a7, a8, a9, a10, a11⟩ := h1
  obtain ⟨b1, b2, b3, b4, b5, b6, b7, b8, b9, b10, b11⟩ := h2
  exact ⟨b1.trans a1, b2.trans a2, b3.trans a3, b4.trans a4, b5.trans a5, b6.trans a6,
    b7.trans a7, b8.trans a8, b9.trans a9, b10.trans a10, fun i hi => b11 i (a11 i hi)⟩

theorem spentEvol_markSpent (w : WTx) (n : Nat) : SpentEvol w (markSpent w n) := by
  refine ⟨rfl, rfl, rfl, rfl, rfl, rfl, rfl, rfl, rfl, ?_, ?_⟩
  · exact List.length_set ..
  · intro i hi
    by_cases hin : n = i
    · subst hin
      have hlt : n < w.vfSpent.length := by
        by_contra hge
        rw [getD_oob false _ _ (le_of_not_lt hge)] at hi
        cases hi
      exact getD_set_self false true _ _ hlt
    · show (w.vfSpent.set n true).getD i false = true
      rw [getD_set_ne false true _ n i hin]
      exact hi

theorem step_lookup_cases (m : List (Nat × WTx)) (q : Nat × Nat) (h : Nat) :
    lookupW (walletUpdateSpentStep m q) h = lookupW m h ∨
    ∃ w, lookupW m h = some w ∧ q.1 = h ∧
      lookupW (walletUpdateSpentStep m q) h = some (markSpent w q.2) := by
  unfold walletUpdateSpentStep
  split
  · exact Or.inl rfl
  · rename_i wtx hq
    split
    · by_cases hh : q.1 = h
      · subst hh
        exact Or.inr ⟨wtx, hq, rfl, by rw [lookupW_updateW_self, hq]; rfl⟩
      · exact Or.inl (lookupW_updateW_ne q.1 h (markSpent wtx q.2) (fun he => hh he.symm) m)
    · exact Or.inl rfl

theorem step_lookup_evol (m : List (Nat × WTx)) (q : Nat × Nat) (h : Nat) (w : WTx)
    (hlk : lookupW m h = some w) :
    ∃ w1, lookupW (walletUpdateSpentStep m q) h = some w1 ∧ SpentEvol w w1 := by
  rcases step_lookup_cases m q h with heq | ⟨w0, hl0, -, hset⟩
  · exact ⟨w, by rw [heq, hlk], spentEvol_refl w⟩
  · obtain rfl : w0 = w := Option.some.inj (hl0.symm.trans hlk)
    exact ⟨markSpent w0 q.2, hset, spentEvol_markSpent w0 q.2⟩

theorem step_keys (m : List (Nat × WTx)) (q : Nat × Nat) :
    (walletUpdateSpentStep m q).map Prod.fst = m.map Prod.fst := by
  unfold walletUpdateSpentStep
  split
  · rfl
  · split
    · exact updateW_keys q.1 _ m
    · rfl

theorem wus_lookup_evol :
    ∀ (vin : List (Nat × Nat)) (m : List (Nat × WTx)) (h : Nat) (w : WTx),
      lookupW m h = some w →
      ∃ w1, lookupW (walletUpdateSpent m vin) h = some w1 ∧ SpentEvol w w1 := by
  intro vin
  induction vin with
  | nil => intro m h w hlk; exact ⟨w, hlk, spentEvol_refl w⟩
  | cons q rest ih =>
    intro m h w hlk
    obtain ⟨w1, hl1, he1⟩ := step_lookup_evol m q h w hlk
    obtain ⟨w2, hl2, he2⟩ := ih (walletUpdateSpentStep m q) h w1 hl1
    exact ⟨w2, hl2, spentEvol_trans he1 he2⟩

theorem wus_keys : ∀ (vin : List (Nat × Nat)) (m : List (Nat × WTx)),
    (walletUpdateSpent m vin).map Prod.fst = m.map Prod.fst := by
  intro vin
  induction vin with
  | nil => intro m; rfl
  | cons q rest ih =>
    intro m
    show (walletUpdateSpent (walletUpdateSpentStep m q) rest).map Prod.fst = _
    rw [ih, step_keys]

theorem settled_step_self (m : List (Nat × WTx)) (q : Nat × Nat) :
    Settled (walletUpdateSpentStep m q) q := by
  intro w hw
  unfold walletUpdateSpentStep at hw
  split at hw
  · rename_i heq
    rw [heq] at hw
    cases hw
  · rename_i wtx heq
    split at hw
    · rw [lookupW_updateW_self, heq] at hw
      have hw2 : markSpent wtx q.2 = w := by simpa using hw
      subst hw2
      by_cases hlt : q.2 < wtx.vfSpent.length
      · exact Or.inl (getD_set_self false true _ _ hlt)
      · refine Or.inr (Or.inr ?_)
        show (wtx.vfSpent.set q.2 true).length ≤ q.2
        rw [List.length_set]
        omega
    · rename_i hcond
      obtain rfl : wtx = w := Option.some.inj (heq.symm.trans hw)
      by_cases hs : isSpentBit wtx q.2 = true
      · exact Or.inl hs
      · refine Or.inr (Or.inl ?_)
        have hsb : isSpentBit wtx q.2 = false := by simpa using hs
        by_contra hm
        apply hcond
        cases hmv : (wtx.vout.getD q.2 txOutDefault).isMine with
        | false => exact absurd hmv hm
        | true =>
          rw [hsb]
          decide

theorem settled_mono_step (m : List (Nat × WTx)) (q pv : Nat × Nat) (hs : Settled m pv) :
    Settled (walletUpdateSpentStep m q) pv := by
  intro w1 hw1
  rcases step_lookup_cases m q pv.1 with heq | ⟨w0, hl0, hqh, hset⟩
  · rw [heq] at hw1
    exact hs w1 hw1
  · rw [hset] at hw1
    obtain rfl : markSpent w0 q.2 = w1 := Option.some.inj hw1
    rcases hs w0 hl0 with hspent | hnm | hoob
    · refine Or.inl ?_
      show (w0.vfSpent.set q.2 true).getD pv.2 false = true
      by_cases heqi : q.2 = pv.2
      · rw [← heqi]
        by_cases hlt : q.2 < w0.vfSpent.length
        · exact getD_set_self false true _ _ hlt
        · rw [set_oob true _ _ (le_of_not_lt hlt)]
          rw [heqi]
          exact hspent
      · rw [getD_set_ne false true _ _ _ heqi]
        exact hspent
    · exact Or.inr (Or.inl hnm)
    · refine Or.inr (Or.inr ?_)
      show (w0.vfSpent.set q.2 true).length ≤ pv.2
      rw [List.length_set]
      exact hoob

theorem settled_mono_wus : ∀ (vin : List (Nat × Nat)) (m : List (Nat × WTx)) (pv : Nat × Nat),
    Settled m pv → Settled (walletUpdateSpent m vin) pv := by
  intro vin
  induction vin with
  | nil => intro m pv h; exact h
  | cons q rest ih =>
    intro m pv h
    exact ih _ pv (settled_mono_step m q pv h)

theorem wus_establishes : ∀ (vin : List (Nat × Nat)) (m : List (Nat × WTx)),
    ∀ pv ∈ vin, Settled (walletUpdateSpent m vin) pv := by
  intro vin
  induction vin with
  | nil => intro m pv hpv; simp at hpv
  | cons q rest ih =>
    intro m pv hpv
    rcases List.mem_cons.mp hpv with rfl | hpv2
    · exact settled_mono_wus rest _ pv (settled_step_self m pv)
    · exact ih _ pv hpv2

theorem step_settled_id (m : List (Nat × WTx)) (pv : Nat × Nat)
    (hnd : (m.map Prod.fst).Nodup) (hs : Settled m pv) :
    walletUpdateSpentStep m pv = m := by
  unfold walletUpdateSpentStep
  split
  · rfl
  · rename_i wtx heq
    rcases hs wtx heq with hspent | hnm | hoob
    · have hsp : isSpentBit wtx pv.2 = true := hspent
      rw [if_neg (by rw [hsp]; simp)]
    · rw [if_neg (by rw [hnm]; simp)]
    · split
      · have hms : markSpent wtx pv.2 = wtx := by
          unfold markSpent
          rw [set_oob true _ _ hoob]
        rw [hms]
        exact updateW_self_eq pv.1 wtx m hnd heq
      · rfl

theorem wus_settled_id : ∀ (vin : List (Nat × Nat)) (m : List (Nat × WTx)),
    (m.map Prod.fst).Nodup → (∀ pv ∈ vin, Settled m pv) →
    walletUpdateSpent m vin = m := by
  intro vin
  induction vin with
  | nil => intro m _ _; rfl
  | cons q rest ih =>
    intro m hnd hsall
    show walletUpdateSpent (walletUpdateSpentStep m q) rest = m
    rw [step_settled_id m q hnd (hsall q (List.mem_cons_self ..))]
    exact ih m hnd (fun pv hpv => hsall pv (List.mem_cons_of_mem _ hpv))

theorem updateSpent_id : ∀ (x y : List Bool),
    (∀ i, i < x.length → y.getD i false = true → x.getD i false = true) →
    updateSpent x y = x := by
  intro x
  induction x with
  | nil => intro y _; cases y <;> rfl
  | cons o os ih =>
    intro y h
    cases y with
    | nil => rfl
    | cons n ns =>
      show (o || n) :: updateSpent os ns = o :: os
      congr 1
      · cases hn : n with
        | false => simp
        | true =>
          have h0 := h 0 (by simp) (by simp [hn])
          simp only [List.getD_cons_zero] at h0
          simp [h0]
      · exact ih ns (fun i hi hy => by
          simpa using h (i + 1) (by simpa using hi) (by simpa using hy))

theorem updateSpent_length : ∀ (x y : List Bool), (updateSpent x y).length = x.length := by
  intro x
  induction x with
  | nil => intro y; cases y <;> rfl
  | cons o os ih =>
    intro y
    cases y with
    | nil => rfl
    | cons n ns =>
      show ((o || n) :: updateSpent os ns).length = os.length + 1
      rw [List.length_cons, ih ns]

theorem updateSpent_getD_true : ∀ (x y : List Bool) (i : Nat),
    i < x.length → y.getD i false = true → (updateSpent x y).getD i false = true := by
  intro x
  induction x with
  | nil => intro y i h; simp at h
  | cons o os ih =>
    intro y i hi hy
    cases y with
    | nil => simp at hy
    | cons n ns =>
      cases i with
      | zero =>
        simp only [List.getD_cons_zero] at hy ⊢
        show ((o || n) : Bool) = true
        simp [hy]
      | succ j =>
        show (updateSpent os ns).getD j false = true
        exact ih ns j (by simpa using hi) (by simpa using hy)

theorem mergeWTx_fields (e w : WTx) :
    (mergeWTx e w).tx = e.tx ∧
    (mergeWTx e w).vout = e.vout ∧
    (mergeWTx e w).nTimeReceived = e.nTimeReceived ∧
    (mergeWTx e w).isCoinBase = e.isCoinBase ∧
    (mergeWTx e w).vtxPrev = e.vtxPrev ∧
    (w.blockHash ≠ 0 → (mergeWTx e w).blockHash = w.blockHash) ∧
    (w.index ≠ -1 →
      (mergeWTx e w).merkleBranch = w.merkleBranch ∧ (mergeWTx e w).index = w.index) ∧
    (w.fFromMe = true → (mergeWTx e w).fFromMe = true) ∧
    (mergeWTx e w).vfSpent = updateSpent e.vfSpent w.vfSpent := by
  simp only [mergeWTx]
  split <;> split <;> split <;>
    refine ⟨rfl, rfl, rfl, rfl, rfl, fun hb => ?_, fun hx => ?_, fun hf => ?_, rfl⟩ <;>
    simp_all

theorem mergeWTx_id_of_evol (w1 wIn : WTx)
    (hbh : wIn.blockHash ≠ 0 → w1.blockHash = wIn.blockHash)
    (hix : wIn.index ≠ -1 → w1.merkleBranch = wIn.merkleBranch ∧ w1.index = wIn.index)
    (hfm : wIn.fFromMe = true → w1.fFromMe = true)
    (hsp : ∀ i, i < w1.vfSpent.length → wIn.vfSpent.getD i false = true →
      w1.vfSpent.getD i false = true) :
    mergeWTx w1 wIn = w1 := by
  simp only [mergeWTx]
  have h1 : (if wIn.blockHash ≠ 0 ∧ wIn.blockHash ≠ w1.blockHash then
      { w1 with blockHash := wIn.blockHash } else w1) = w1 := by
    split
    · rename_i hc
      exact absurd (hbh hc.1).symm hc.2
    · rfl
  rw [h1]
  have h2 : (if wIn.index ≠ -1 ∧
      (wIn.merkleBranch ≠ w1.merkleBranch ∨ wIn.index ≠ w1.index) then
      { w1 with merkleBranch := wIn.merkleBranch, index := wIn.index } else w1) = w1 := by
    split
    · rename_i hc
      obtain ⟨hx1, hx2⟩ := hix hc.1
      rcases hc.2 with hc2 | hc2
      · exact absurd hx1.symm hc2
      · exact absurd hx2.symm hc2
    · rfl
  rw [h2]
  have h3 : (if wIn.fFromMe = true ∧ wIn.fFromMe ≠ w1.fFromMe then
      { w1 with fFromMe := wIn.fFromMe } else w1) = w1 := by
    split
    · rename_i hc
      exact absurd (hc.1.trans (hfm hc.1).symm) hc.2
    · rfl
  rw [h3]
  rw [updateSpent_id w1.vfSpent wIn.vfSpent hsp]

theorem addToWallet_none (m : List (Nat × WTx)) (w : WTx) (now : Nat)
    (h : lookupW m w.tx.hash = none) :
    addToWallet m w now =
      walletUpdateSpent (m ++ [(w.tx.hash, { w with nTimeReceived := now })]) w.tx.vin := by
  unfold addToWallet
  rw [h]

theorem addToWallet_some (m : List (Nat × WTx)) (w : WTx) (now : Nat) (e : WTx)
    (h : lookupW m w.tx.hash = some e) :
    addToWallet m w now =
      walletUpdateSpent (updateW m w.tx.hash (mergeWTx e w)) (mergeWTx e w).tx.vin := by
  unfold addToWallet
  rw [h]

/-- C8: `Wallet::AddToWallet` is idempotent on `mapWallet`: adding the same
record twice leaves the map in exactly the state of adding it once — the
second call's merge adopts nothing new (block hash, merkle branch/index and
`fFromMe` were already taken over, and spent flags are never switched back
off), and its `WalletUpdateSpent` pass finds every referenced coin already
settled. -/
theorem addToWallet_idem (m : List (Nat × WTx)) (w : WTx) (t1 t2 : Nat)
    (hnd : (m.map Prod.fst).Nodup) :
    addToWallet (addToWallet m w t1) w t2 = addToWallet m w t1 := by
  cases hlk : lookupW m w.tx.hash with
  | none =>
    rw [addToWallet_none m w t1 hlk]
    have hlk0 : lookupW (m ++ [(w.tx.hash, { w with nTimeReceived := t1 })]) w.tx.hash =
        some { w with nTimeReceived := t1 } :=
      lookupW_append_right w.tx.hash _ m hlk
    obtain ⟨w1, hl1, hev⟩ := wus_lookup_evol w.tx.vin _ w.tx.hash _ hlk0
    obtain ⟨hetx, hevout, hebh, hebr, heix, hefm, hent, hecb, hevp, helen, hebits⟩ := hev
    have hnd1 : ((walletUpdateSpent (m ++ [(w.tx.hash, { w with nTimeReceived := t1 })])
        w.tx.vin).map Prod.fst).Nodup := by
      rw [wus_keys]
      rw [List.map_append, List.nodup_append]
      refine ⟨hnd, by simp, ?_⟩
      intro a ha hb
      have ha2 : a = w.tx.hash := by simpa using hb
      subst ha2
      exact (lookupW_none_iff w.tx.hash m).mp hlk ha
    rw [addToWallet_some _ w t2 w1 hl1]
    have hmerge : mergeWTx w1 w = w1 := by
      apply mergeWTx_id_of_evol
      · intro _; exact hebh
      · intro _; exact ⟨hebr, heix⟩
      · intro hf; exact hefm.trans hf
      · intro i hi hb; exact hebits i hb
    rw [hmerge]
    rw [updateW_self_eq w.tx.hash w1 _ hnd1 hl1]
    have hvin : w1.tx = w.tx := hetx
    rw [hvin]
    exact wus_settled_id w.tx.vin _ hnd1 (fun pv hpv => wus_establishes w.tx.vin _ pv hpv)
  | some e =>
    rw [addToWallet_some m w t1 e hlk]
    obtain ⟨hftx, hfvout, hfnt, hfcb, hfvp, hfbh, hfix, hffm, hfvf⟩ := mergeWTx_fields e w
    have hlk0 : lookupW (updateW m w.tx.hash (mergeWTx e w)) w.tx.hash =
        some (mergeWTx e w) := by
      rw [lookupW_updateW_self, hlk]
      rfl
    obtain ⟨r1, hl1, hev⟩ := wus_lookup_evol (mergeWTx e w).tx.vin _ w.tx.hash _ hlk0
    obtain ⟨hetx, hevout, hebh, hebr, heix, hefm, hent, hecb, hevp, helen, hebits⟩ := hev
    have hnd1 : ((walletUpdateSpent (updateW m w.tx.hash (mergeWTx e w))
        (mergeWTx e w).tx.vin).map Prod.fst).Nodup := by
      rw [wus_keys, updateW_keys]
      exact hnd
    rw [addToWallet_some _ w t2 r1 hl1]
    have hmerge : mergeWTx r1 w = r1 := by
      apply mergeWTx_id_of_evol
      · intro hb; exact hebh.trans (hfbh hb)
      · intro hx; exact ⟨hebr.trans (hfix hx).1, heix.trans (hfix hx).2⟩
      · intro hf; exact hefm.trans (hffm hf)
      · intro i hi hb
        apply hebits
        rw [hfvf]
        apply updateSpent_getD_true
        · rw [helen, hfvf, updateSpent_length] at hi
          exact hi
        · exact hb
    rw [hmerge]
    rw [updateW_self_eq w.tx.hash r1 _ hnd1 hl1]
    have hvin : r1.tx = (mergeWTx e w).tx := hetx
    rw [hvin]
    exact wus_settled_id _ _ hnd1 (fun pv hpv => wus_establishes _ _ pv hpv)

/-- Witness for C8: adding the same record twice to an empty wallet equals
adding it once. -/
theorem addToWallet_idem_witness :
    addToWallet (addToWallet [] (simpleCoin 1 30) 5) (simpleCoin 1 30) 9 =
      addToWallet [] (simpleCoin 1 30) 5 :=
  addToWallet_idem [] (simpleCoin 1 30) 5 9 (by decide)

end BtcWallet
